import Mathlib

/-!
# inmem_kv: a shallow embedding of the store and of the line protocol

The definitions follow the C++ sources:

* `src/allocator.cpp` (`MemoryPool`),
* `include/kv/hash_table.hpp` (`HashNode`, `HashTable`),
* `include/kv/sharded_hash_map.hpp` (`ShardedHashMap`),
* `include/kv/server.hpp` (`Server::handle_connection`),
* `include/kv/coroutine_io.hpp`, `src/coroutine_io.cpp` (`EventLoop`, the awaitables),
* `main.cpp` (`main`),
* `include/config.hpp` (the constants).

A bucket chain (a null-terminated list of `HashNode*`) is a `List` whose head is
the bucket head.  The hash functor `Hash` is a parameter `hash : K → Nat`, and
`KeyEqual = std::equal_to` is decidable equality.  Locks are not modelled: every
operation here is one sequential call.
-/

set_option autoImplicit false
set_option linter.unusedSectionVars false

namespace kv

/-! ## config.hpp -/

namespace config

def SERVER_PORT : Nat := 4000
def HASH_MAP_SHARDS : Nat := 16
def MAX_KEY_SIZE : Nat := 128
def MAX_VALUE_SIZE : Nat := 1024 * 10

end config

/-! ## allocator.cpp -/

/-- A slot of the pool: the number of the growth block it was cut from and its
index inside that block (the address `block + i * blockSize_`). -/
abbrev Slot := Nat × Nat

/-- State of a `MemoryPool`.  `freeList_` is the intrusive free list, head
first; `allBlocks_` is the number of growth blocks obtained so far
(`allBlocks_.size()`).  The byte size `blockSize_` of a slot only scales
addresses and is not kept. -/
structure MemoryPool where
  blocksCount_ : Nat
  freeList_ : List Slot
  allBlocks_ : Nat
deriving DecidableEq, Repr

namespace MemoryPool

/-- The constructor `MemoryPool(blockSize, blocksCount)`. -/
def new (blocksCount : Nat) : MemoryPool :=
  { blocksCount_ := blocksCount, freeList_ := [], allBlocks_ := 0 }

/-- The method `allocateBlock()`: one more growth block, every slot of it pushed on
the free list in increasing order of index. -/
def allocateBlock (p : MemoryPool) : MemoryPool :=
  { p with
    allBlocks_ := p.allBlocks_ + 1
    freeList_ := (List.range p.blocksCount_).foldl
      (fun fl i => (p.allBlocks_, i) :: fl) p.freeList_ }

/-- The method `allocate()`: grow when the free list is empty, then pop its head.
The last branch (free list still empty after growing) needs `blocksCount_ = 0`,
where the source dereferences a null pointer; a table never builds such a pool. -/
def allocate (p : MemoryPool) : Slot × MemoryPool :=
  let p1 := if p.freeList_.isEmpty then p.allocateBlock else p
  match p1.freeList_ with
  | node :: rest => (node, { p1 with freeList_ := rest })
  | [] => ((p1.allBlocks_, 0), p1)

/-- The method `deallocate(ptr)` for a non-null `ptr`: push it on the free list. -/
def deallocate (p : MemoryPool) (ptr : Slot) : MemoryPool :=
  { p with freeList_ := ptr :: p.freeList_ }

end MemoryPool

/-! ## hash_table.hpp -/

/-- A chain node; `addr` is the pool slot the node lives in, the `next` pointer is
the tail of the list the node is the head of. -/
structure HashNode (K V : Type) where
  addr : Slot
  key : K
  value : V
deriving DecidableEq, Repr

/-- State of a `HashTable`. -/
structure HashTable (K V : Type) where
  capacity_ : Nat
  buckets_ : List (List (HashNode K V))
  nodePool_ : MemoryPool
  size_ : Nat

/-- Value of `static_cast<float>(n)` for an unsigned integer, and more generally
the rounding of a natural number to the 24 significant bits of an IEEE-754
binary32 number, round-to-nearest, ties-to-even (below `2^128`, where binary32
does not overflow). -/
def roundToF32 (n : Nat) : Nat :=
  if n < 2 ^ 24 then n
  else
    let e := Nat.log2 n - 23
    let q := n / 2 ^ e
    let r := n % 2 ^ e
    let half := 2 ^ (e - 1)
    if r < half then q * 2 ^ e
    else if half < r then (q + 1) * 2 ^ e
    else if q % 2 = 0 then q * 2 ^ e
    else (q + 1) * 2 ^ e

/-- The test `static_cast<float>(size_) > static_cast<float>(capacity_) * maxLoadFactor_`
with `maxLoadFactor_ = 0.75f`.  The product of the float `x` with `0.75f` is
`3 * x / 4` rounded to binary32; counted in quarters it is `roundToF32 (3 * x)`,
and the left side counted in quarters is `4 * roundToF32 size`. -/
def needRehash (size capacity : Nat) : Bool :=
  decide (roundToF32 (3 * roundToF32 capacity) < 4 * roundToF32 size)

section Table

variable {K V : Type} [DecidableEq K]

/-- The scan of `put`: overwrite the value of the first node whose key matches;
`none` when the scan reaches the end of the chain. -/
def chainAssign (key : K) (value : V) : List (HashNode K V) → Option (List (HashNode K V))
  | [] => none
  | node :: rest =>
    if node.key = key then some ({ node with value := value } :: rest)
    else (chainAssign key value rest).map (fun rest' => node :: rest')

/-- The scan of `get`: the value of the first node whose key matches. -/
def chainFind (key : K) : List (HashNode K V) → Option V
  | [] => none
  | node :: rest => if node.key = key then some node.value else chainFind key rest

/-- The scan of `erase`: unlink the first node whose key matches; gives the node
and the chain without it. -/
def chainUnlink (key : K) : List (HashNode K V) → Option (HashNode K V × List (HashNode K V))
  | [] => none
  | node :: rest =>
    if node.key = key then some (node, rest)
    else (chainUnlink key rest).map (fun r => (r.1, node :: r.2))

namespace HashTable

/-- The constructor `HashTable(initial_capacity)`. -/
def new (initial_capacity : Nat := 1024) : HashTable K V :=
  let capacity := if 0 < initial_capacity then initial_capacity else 1
  { capacity_ := capacity
    buckets_ := List.replicate capacity []
    nodePool_ := MemoryPool.new capacity
    size_ := 0 }

/-- The body of the inner loop of `rehash`: link `node` at the head of its new bucket. -/
def relink (hash : K → Nat) (newCapacity : Nat)
    (newBuckets : List (List (HashNode K V))) (node : HashNode K V) :
    List (List (HashNode K V)) :=
  let newIdx := hash node.key % newCapacity
  newBuckets.set newIdx (node :: newBuckets.getD newIdx [])

/-- The method `rehash()`.  The product `capacity_ * 2` is taken in the naturals:
a `size_t` does not wrap around below `2 ^ 63` buckets. -/
def rehash (hash : K → Nat) (t : HashTable K V) : HashTable K V :=
  let newCapacity := t.capacity_ * 2
  let newBuckets := (List.range t.capacity_).foldl
    (fun nb i => (t.buckets_.getD i []).foldl (relink hash newCapacity) nb)
    (List.replicate newCapacity [])
  { t with capacity_ := newCapacity, buckets_ := newBuckets }

/-- Lines 62 to 65 of `put`: allocate a node from the pool, construct it with
`next = buckets_[idx]`, make it the bucket head, `++size_`. -/
def linkNew (hash : K → Nat) (t : HashTable K V) (key : K) (value : V) : HashTable K V :=
  let idx := hash key % t.capacity_
  let rawNode := t.nodePool_.allocate
  let newNode : HashNode K V := { addr := rawNode.1, key := key, value := value }
  { t with
    buckets_ := t.buckets_.set idx (newNode :: t.buckets_.getD idx [])
    nodePool_ := rawNode.2
    size_ := t.size_ + 1 }

/-- The method `put(key, value)`; the C++ method returns `true` on every path. -/
def put (hash : K → Nat) (t : HashTable K V) (key : K) (value : V) : HashTable K V :=
  let idx := hash key % t.capacity_
  match chainAssign key value (t.buckets_.getD idx []) with
  | some chain => { t with buckets_ := t.buckets_.set idx chain }
  | none =>
    let t1 := linkNew hash t key value
    if needRehash t1.size_ t1.capacity_ then rehash hash t1 else t1

/-- The method `get(key)`. -/
def get (hash : K → Nat) (t : HashTable K V) (key : K) : Option V :=
  let idx := hash key % t.capacity_
  chainFind key (t.buckets_.getD idx [])

/-- The method `erase(key)`: the returned flag and the table afterwards.  When
a node is found `size_` is at least one in every state the class can be in, so
`--size_` does not wrap around. -/
def erase (hash : K → Nat) (t : HashTable K V) (key : K) : Bool × HashTable K V :=
  let idx := hash key % t.capacity_
  match chainUnlink key (t.buckets_.getD idx []) with
  | some (node, chain) =>
    (true, { t with
              buckets_ := t.buckets_.set idx chain
              nodePool_ := t.nodePool_.deallocate node.addr
              size_ := t.size_ - 1 })
  | none => (false, t)

/-- The method `size()`. -/
def size (t : HashTable K V) : Nat := t.size_

/-- The nodes of all chains, bucket after bucket. -/
def entries (t : HashTable K V) : List (HashNode K V) := t.buckets_.flatten

/-- Table states that sequential calls of `put` and `erase` produce from a newly
constructed table. -/
inductive Reachable (hash : K → Nat) : HashTable K V → Prop
  | init (initial_capacity : Nat) : Reachable hash (new initial_capacity)
  | put (t : HashTable K V) (key : K) (value : V) :
      Reachable hash t → Reachable hash (put hash t key value)
  | erase (t : HashTable K V) (key : K) :
      Reachable hash t → Reachable hash (erase hash t key).2

end HashTable

end Table

/-! ## sharded_hash_map.hpp -/

/-- State of a `ShardedHashMap`. -/
structure ShardedHashMap (K V : Type) where
  numShards_ : Nat
  shards_ : List (HashTable K V)

section Store

variable {K V : Type} [DecidableEq K]

namespace ShardedHashMap

/-- The constructor `ShardedHashMap(numShards)`: `numShards` default-constructed tables. -/
def new (numShards : Nat := config.HASH_MAP_SHARDS) : ShardedHashMap K V :=
  { numShards_ := numShards
    shards_ := (List.range numShards).foldl
      (fun shards _ => shards ++ [HashTable.new]) [] }

/-- The method `getShardIndex(key)`. -/
def getShardIndex (hash : K → Nat) (s : ShardedHashMap K V) (key : K) : Nat :=
  hash key % s.numShards_

/-- The method `put(key, value)`.  The branch `none` (no shard at the index) needs
`numShards_ = 0`, where the source takes a remainder by zero. -/
def put (hash : K → Nat) (s : ShardedHashMap K V) (key : K) (value : V) :
    ShardedHashMap K V :=
  let idx := getShardIndex hash s key
  match s.shards_[idx]? with
  | some shard => { s with shards_ := s.shards_.set idx (shard.put hash key value) }
  | none => s

/-- The method `get(key)`; the branch `none` as in `put`. -/
def get (hash : K → Nat) (s : ShardedHashMap K V) (key : K) : Option V :=
  let idx := getShardIndex hash s key
  match s.shards_[idx]? with
  | some shard => shard.get hash key
  | none => none

/-- The method `erase(key)`: the returned flag and the store afterwards; the
branch `none` as in `put`. -/
def erase (hash : K → Nat) (s : ShardedHashMap K V) (key : K) :
    Bool × ShardedHashMap K V :=
  let idx := getShardIndex hash s key
  match s.shards_[idx]? with
  | some shard =>
    ((shard.erase hash key).1, { s with shards_ := s.shards_.set idx (shard.erase hash key).2 })
  | none => (false, s)

/-- The method `size()`. -/
def size (s : ShardedHashMap K V) : Nat :=
  s.shards_.foldl (fun total table => total + table.size) 0

/-- Store states that sequential calls of `put` and `erase` produce from a newly
constructed store with at least one shard. -/
inductive Reachable (hash : K → Nat) : ShardedHashMap K V → Prop
  | init (numShards : Nat) (h : 0 < numShards) : Reachable hash (new numShards)
  | put (s : ShardedHashMap K V) (key : K) (value : V) :
      Reachable hash s → Reachable hash (put hash s key value)
  | erase (s : ShardedHashMap K V) (key : K) :
      Reachable hash s → Reachable hash (erase hash s key).2

end ShardedHashMap

end Store

/-! ## Representation invariants -/

section Invariants

variable {K V : Type} [DecidableEq K]

/-- The representation invariant of `HashTable`: the vector has `capacity_`
chains, every node sits in the chain of its bucket index, no chain holds a key
twice, and `size_` counts the nodes. -/
structure TableInv (hash : K → Nat) (t : HashTable K V) : Prop where
  cap_pos : 0 < t.capacity_
  len : t.buckets_.length = t.capacity_
  home : ∀ i n, n ∈ t.buckets_.getD i [] → hash n.key % t.capacity_ = i
  nodup : ∀ i, ((t.buckets_.getD i []).map (fun m => m.key)).Nodup
  size_eq : t.size_ = (t.buckets_.map List.length).sum

/-- The representation invariant of `ShardedHashMap`: `numShards_` tables, each
with its own invariant and holding only keys routed to it. -/
structure StoreInv (hash : K → Nat) (s : ShardedHashMap K V) : Prop where
  pos : 0 < s.numShards_
  len : s.shards_.length = s.numShards_
  shard : ∀ i t, s.shards_[i]? = some t →
    TableInv hash t ∧ ∀ n ∈ t.entries, hash n.key % s.numShards_ = i

/-- The nodes of all chains of all shards. -/
def ShardedHashMap.entries (s : ShardedHashMap K V) : List (HashNode K V) :=
  (s.shards_.map HashTable.entries).flatten

end Invariants

/-! ## server.hpp -/

/-- A `char` of a `std::string`. -/
abbrev Byte := Fin 256

/-- The bytes of an ASCII string literal of the source. -/
def bytes (s : String) : List Byte := s.toList.map (fun c => Fin.ofNat c.toNat)

def LF : Byte := 10
def CR : Byte := 13
def SP : Byte := 32

/-- The size of `char buffer[4096]` in `handle_connection`. -/
def BUFFER_SIZE : Nat := 4096

/-- The loop `while (!req.empty() && (req.back() == CR || req.back() == LF)) req.pop_back();`. -/
def trimLineEnd (req : List Byte) : List Byte :=
  req.rdropWhile (fun b => b == CR || b == LF)

/-- The test `req.rfind(p, 0) == 0`: `req` begins with `p`. -/
def startsWith (req p : List Byte) : Bool := req.take p.length == p

/-- Index of the first occurrence of `c`, the value of `std::string::find(c)`;
`none` is `npos`. -/
def findByte (c : Byte) : List Byte → Option Nat
  | [] => none
  | b :: rest => if b = c then some 0 else (findByte c rest).map (fun i => i + 1)

/-- The call `req.find(c, start)`. -/
def findFrom (c : Byte) (start : Nat) (req : List Byte) : Option Nat :=
  (findByte c (req.drop start)).map (fun i => start + i)

/-- The store of the server: `ShardedHashMap<std::string, std::string>`. -/
abbrev Store := ShardedHashMap (List Byte) (List Byte)

/-- One turn of the loop of `handle_connection` after a read that returned
`n > 0` bytes (`buffer` holds these `n` bytes): the store afterwards and the
reply handed to `async_write`. -/
def handleRequest (hash : List Byte → Nat) (store : Store) (buffer : List Byte) :
    Store × List Byte :=
  let req := trimLineEnd buffer
  if startsWith req (bytes "GET ") then
    let key := req.drop 4
    match store.get hash key with
    | some value => (store, value ++ bytes "\n")
    | none => (store, bytes "NOT_FOUND\n")
  else if startsWith req (bytes "SET ") then
    match findFrom SP 4 req with
    | none => (store, bytes "ERROR\n")
    | some pos =>
      let key := (req.drop 4).take (pos - 4)
      let val := req.drop (pos + 1)
      if config.MAX_KEY_SIZE < key.length ∨ config.MAX_VALUE_SIZE < val.length then
        (store, bytes "ERROR_TOO_LARGE\n")
      else
        (store.put hash key val, bytes "STORED\n")
  else if startsWith req (bytes "DEL ") then
    let key := req.drop 4
    let erased := store.erase hash key
    (erased.2, if erased.1 then bytes "DELETED\n" else bytes "NOT_FOUND\n")
  else (store, bytes "ERROR\n")

/-- The loop of `handle_connection` over the buffers of successive successful
reads: the store afterwards and the replies handed to `async_write`, in order. -/
def serveReads (hash : List Byte → Nat) (store : Store) :
    List (List Byte) → Store × List (List Byte)
  | [] => (store, [])
  | buffer :: rest =>
    let r := handleRequest hash store buffer
    let r2 := serveReads hash r.1 rest
    (r2.1, r.2 :: r2.2)

/-- The request line `SET <key> <value>` followed by a line feed, as a client sends it. -/
def setLine (key value : List Byte) : List Byte :=
  bytes "SET " ++ key ++ SP :: value ++ [LF]

/-- The request line `GET <key>` followed by a line feed. -/
def getLine (key : List Byte) : List Byte := bytes "GET " ++ key ++ [LF]

/-- The request line `DEL <key>` followed by a line feed. -/
def delLine (key : List Byte) : List Byte := bytes "DEL " ++ key ++ [LF]

/-- The table built by `HashTable<size_t, size_t>(1 << 26)` followed by `put(k, 0)`
for `k = 0, 1, ..., n - 1`, with the identity as hash. -/
def filledTable (n : Nat) : HashTable Nat Nat :=
  (List.range n).foldl (fun t k => t.put (fun x => x) k 0) (HashTable.new (2 ^ 26))

/-- The table `filledTable` with 50331648 keys, three quarters of its capacity. -/
def bigTable : HashTable Nat Nat := filledTable 50331648

/-! ## Small concrete states -/

/-- A table with two buckets holding the key 1. -/
def demoTable : HashTable Nat Nat := (HashTable.new 2).put (fun n => n) 1 10

/-- The table `demoTable` at the point where `put(3, 30)` calls `rehash()`. -/
def demoTableFull : HashTable Nat Nat := demoTable.linkNew (fun n => n) 3 30

/-- A store of 16 shards holding the key 5. -/
def demoStore : ShardedHashMap Nat Nat := (ShardedHashMap.new 16).put (fun n => n) 5 50

/-- The store of a server that has handled no request, as `Server` constructs it. -/
def emptyStore : Store := ShardedHashMap.new config.HASH_MAP_SHARDS

/-- A hash function on byte strings. -/
def lengthHash (key : List Byte) : Nat := key.length

/-- No CR and no LF byte. -/
def NoLineEnd (l : List Byte) : Prop := CR ∉ l ∧ LF ∉ l

/-- The store invariant, and no key or value of the store holds a CR or LF byte. -/
def CleanStore (hash : List Byte → Nat) (s : Store) : Prop :=
  StoreInv hash s ∧ ∀ n ∈ s.entries, NoLineEnd n.key ∧ NoLineEnd n.value

/-! ## server.hpp: the connection task as a state machine -/

/-- Where the coroutine `handle_connection` stands: suspended in
`co_await async_read`, suspended in `co_await async_write` of a reply, or past
the loop (descriptor closed, `co_return`). -/
inductive ConnState
  | awaitRead
  | awaitWrite (resp : List Byte)
  | closed
deriving DecidableEq, Repr

/-- The value an awaited operation returns when the task is resumed: the count
returned by `async_read` together with the content of `buffer`, or the count
returned by `async_write`. -/
inductive IOResult
  | read (n : Int) (buffer : List Byte)
  | write (n : Int)
deriving DecidableEq, Repr

/-- One resumption of `handle_connection`.  A read with `n <= 0` leaves the loop;
a read with `n > 0` handles `std::string(buffer, buffer + n)` and suspends in the
write of the reply; the value of `co_await async_write(...)` is discarded and
the loop goes on to the next read. -/
def connStep (hash : List Byte → Nat) (c : ConnState × Store) (io : IOResult) :
    ConnState × Store :=
  match c.1, io with
  | ConnState.awaitRead, IOResult.read n buffer =>
    if n ≤ 0 then (ConnState.closed, c.2)
    else
      let r := handleRequest hash c.2 (buffer.take n.toNat)
      (ConnState.awaitWrite r.2, r.1)
  | ConnState.awaitWrite _, IOResult.write _ => (ConnState.awaitRead, c.2)
  | _, _ => c

/-- The task run from its start on a sequence of results of its socket operations. -/
def connRun (hash : List Byte → Nat) (store : Store) (ios : List IOResult) :
    ConnState × Store :=
  ios.foldl (connStep hash) (ConnState.awaitRead, store)

/-! ## coroutine_io.cpp: the epoll reactor -/

def EPOLLIN : Nat := 1
def EPOLLOUT : Nat := 4

/-- The struct `EventLoop::Handler`; `handle` is the address of the coroutine
frame, 0 for a null `std::coroutine_handle<>`. -/
structure Handler where
  handle : Nat
  events : Nat
deriving DecidableEq, Repr

/-- The map `handlers_` from descriptor to `Handler`. -/
abbrev Handlers := Int → Option Handler

namespace EventLoop

/-- The assignment `handlers_[fd] = handler`. -/
def assign (handlers : Handlers) (fd : Int) (handler : Handler) : Handlers :=
  fun x => if x = fd then some handler else handlers x

/-- The call `handlers_.erase(fd)`. -/
def eraseFd (handlers : Handlers) (fd : Int) : Handlers :=
  fun x => if x = fd then none else handlers x

/-- The method `add_reader(fd, h)` on `handlers_`; `fcntlOk` tells whether both
`fcntl` calls succeeded (the method returns early otherwise).  A failure of
`epoll_ctl` is logged and the registration is recorded all the same. -/
def add_reader (handlers : Handlers) (fd : Int) (h : Nat) (fcntlOk : Bool) : Handlers :=
  if fcntlOk then assign handlers fd { handle := h, events := EPOLLIN } else handlers

/-- The method `add_writer(fd, h)` on `handlers_`, as `add_reader`. -/
def add_writer (handlers : Handlers) (fd : Int) (h : Nat) (fcntlOk : Bool) : Handlers :=
  if fcntlOk then assign handlers fd { handle := h, events := EPOLLOUT } else handlers

/-- The method `remove(fd)` on `handlers_`. -/
def remove (handlers : Handlers) (fd : Int) : Handlers := eraseFd handlers fd

/-- The body of the loop of `wait_and_handle_epoll` for one ready descriptor:
`handlers_` at the time of `handle.resume()` and the handle resumed, if any. -/
def handleEvent (handlers : Handlers) (fd : Int) : Handlers × Option Nat :=
  match handlers fd with
  | some handler =>
    (eraseFd handlers fd, if handler.handle ≠ 0 then some handler.handle else none)
  | none => (handlers, none)

end EventLoop

/-! ## main.cpp -/

/-- What `main` hands on: the value of its local `port` when the server is
constructed, and the port argument of the `Server` constructor. -/
structure MainRun where
  port : Nat
  serverPort : Nat
deriving DecidableEq, Repr

/-- The function `main`, up to the construction of the server.  `stoi` is
`std::stoi` (`none` when it throws), `argv` the argument vector, program name
first. -/
def mainRun (stoi : List Byte → Option Int) (argv : List (List Byte)) : MainRun :=
  let port :=
    if 2 ≤ argv.length then
      match stoi (argv.getD 1 []) with
      | some p => if 0 < p ∧ p < 65536 then p.toNat else config.SERVER_PORT
      | none => config.SERVER_PORT
    else config.SERVER_PORT
  { port := port, serverPort := 5555 }

/-! ## Cycles and interleavings -/

section Scenarios

variable {K V : Type} [DecidableEq K]

/-- The table after `n` cycles `put(key, value); erase(key)`. -/
def HashTable.churn (hash : K → Nat) (t : HashTable K V) (key : K) (value : V) :
    Nat → HashTable K V
  | 0 => t
  | n + 1 => (((HashTable.churn hash t key value n).put hash key value).erase hash key).2


/-- Lines 50 to 67 of `put`, the part run under `lock`: the table when the lock
is released and the local `needRehash` (`false` on the overwrite path, which
returns at once). -/
def HashTable.putLocked (hash : K → Nat) (t : HashTable K V) (key : K) (value : V) :
    HashTable K V × Bool :=
  let idx := hash key % t.capacity_
  match chainAssign key value (t.buckets_.getD idx []) with
  | some chain => ({ t with buckets_ := t.buckets_.set idx chain }, false)
  | none =>
    let t1 := HashTable.linkNew hash t key value
    (t1, needRehash t1.size_ t1.capacity_)

/-- Lines 69 to 71 of `put`, run after the lock is released: `rehash()`, which
takes the lock for its whole body, when `needRehash` is set. -/
def HashTable.putResize (hash : K → Nat) (t : HashTable K V) (need : Bool) :
    HashTable K V :=
  if need then HashTable.rehash hash t else t

/-- Two writers calling `put` on one table, scheduled so that both run their
locked part before either runs its resize. -/
def HashTable.twoWriters (hash : K → Nat) (t : HashTable K V)
    (key1 : K) (value1 : V) (key2 : K) (value2 : V) : HashTable K V :=
  let a := HashTable.putLocked hash t key1 value1
  let b := HashTable.putLocked hash a.1 key2 value2
  let c := HashTable.putResize hash b.1 a.2
  HashTable.putResize hash c b.2

/-- A table of capacity 4 with three keys, at the load-factor threshold. -/
def demoTable4 : HashTable Nat Nat :=
  (((HashTable.new 4).put (fun n => n) 0 0).put (fun n => n) 1 10).put (fun n => n) 2 20


end Scenarios

/-! ## coroutine_io.cpp and server.hpp: one connection served through epoll -/

/-- The flag `EPOLLET` of `<sys/epoll.h>`, `1u << 31`. -/
def EPOLLET : Nat := 2 ^ 31

/-- The interest list of the epoll instance `epollFd_`, which the kernel keeps:
the event mask each registered descriptor was added with. -/
abbrev Interest := Int → Option Nat

/-- The call `epoll_ctl(epollFd_, EPOLL_CTL_ADD, fd, &ev)`: whether it succeeded
and the interest list afterwards.  For a descriptor that is in the list already
the call fails with `EEXIST` and changes nothing. -/
def epoll_ctl_add (interest : Interest) (fd : Int) (events : Nat) : Bool × Interest :=
  match interest fd with
  | some _ => (false, interest)
  | none => (true, fun x => if x = fd then some events else interest x)

/-- The state of the event loop: the map `handlers_` and the interest list of
`epollFd_`. -/
structure Reactor where
  handlers : Handlers
  interest : Interest

namespace Reactor

/-- The method `EventLoop::add_reader(fd, h)` with both `fcntl` calls succeeding:
`EPOLL_CTL_ADD` with `EPOLLIN | EPOLLET`, whose failure is only logged, then
`handlers_[fd] = Handler{h, EPOLLIN}`. -/
def add_reader (r : Reactor) (fd : Int) (h : Nat) : Reactor :=
  { handlers := EventLoop.add_reader r.handlers fd h true
    interest := (epoll_ctl_add r.interest fd (EPOLLIN ||| EPOLLET)).2 }

/-- The method `EventLoop::add_writer(fd, h)`, as `add_reader`, with
`EPOLLOUT | EPOLLET` and `Handler{h, EPOLLOUT}`. -/
def add_writer (r : Reactor) (fd : Int) (h : Nat) : Reactor :=
  { handlers := EventLoop.add_writer r.handlers fd h true
    interest := (epoll_ctl_add r.interest fd (EPOLLOUT ||| EPOLLET)).2 }

/-- The call `close(clientFd)` at the end of `handle_connection`: the kernel
drops the closed descriptor from the interest list; `handlers_` is not touched. -/
def close (r : Reactor) (fd : Int) : Reactor :=
  { r with interest := fun x => if x = fd then none else r.interest x }

end Reactor

/-- One connection: where the task `handle_connection(clientFd)` is suspended,
the store, the event loop, the bytes that have arrived on the socket and are
not read yet, and the byte strings written to the socket so far, in order. -/
structure Connection where
  task : ConnState
  store : Store
  reactor : Reactor
  pending : List Byte
  written : List (List Byte)

namespace Connection

/-- The task reaches a `co_await`: `await_ready()` is `false`, so
`await_suspend(h)` registers the task with `add_reader` or `add_writer` and
control returns to the caller; after the loop the task closes the descriptor. -/
def suspend (c : Connection) (fd : Int) (h : Nat) : Connection :=
  match c.task with
  | ConnState.awaitRead => { c with reactor := c.reactor.add_reader fd h }
  | ConnState.awaitWrite _ => { c with reactor := c.reactor.add_writer fd h }
  | ConnState.closed => { c with reactor := c.reactor.close fd }

/-- The call `handle_connection(clientFd)` on a socket just accepted, with
nothing registered yet: the task runs to its first `co_await async_read`. -/
def start (store : Store) (fd : Int) (h : Nat) : Connection :=
  suspend
    { task := ConnState.awaitRead
      store := store
      reactor := { handlers := fun _ => none, interest := fun _ => none }
      pending := []
      written := [] } fd h

/-- The call `handle.resume()`: the task runs from its suspension point to the
next one.  `ReadAwaitable::await_resume` calls `read(fd, buffer, 4096)`, which
takes the bytes that have arrived, at most 4096 of them, and returns their
number (with nothing to take the call returns 0 or -1, and the task leaves the
loop on both); `WriteAwaitable::await_resume` calls `write(fd, resp, size)`,
which writes the reply (the socket has room for it) and returns its length. -/
def resume (hash : List Byte → Nat) (c : Connection) (fd : Int) (h : Nat) : Connection :=
  match c.task with
  | ConnState.awaitRead =>
    let buffer := c.pending.take BUFFER_SIZE
    let r := connStep hash (c.task, c.store) (IOResult.read buffer.length buffer)
    suspend { c with task := r.1, store := r.2, pending := c.pending.drop BUFFER_SIZE } fd h
  | ConnState.awaitWrite resp =>
    let r := connStep hash (c.task, c.store) (IOResult.write resp.length)
    suspend { c with task := r.1, store := r.2, written := c.written ++ [resp] } fd h
  | ConnState.closed => c

/-- The body of the loop of `wait_and_handle_epoll` for the ready descriptor
`fd`: the handler of `fd` is taken out of `handlers_` and its handle, if any,
is resumed. -/
def dispatch (hash : List Byte → Nat) (c : Connection) (fd : Int) : Connection :=
  let e := EventLoop.handleEvent c.reactor.handlers fd
  let c2 := { c with reactor := { c.reactor with handlers := e.1 } }
  match e.2 with
  | some h => resume hash c2 fd h
  | none => c2

/-- The bytes `data` arrive on the socket.  The descriptor is registered
edge-triggered, so `epoll_wait` reports it once for this arrival, and only if
its mask in the interest list holds `EPOLLIN`. -/
def receive (hash : List Byte → Nat) (c : Connection) (fd : Int) (data : List Byte) :
    Connection :=
  let c1 := { c with pending := c.pending ++ data }
  match c1.reactor.interest fd with
  | some events => if events &&& EPOLLIN ≠ 0 then dispatch hash c1 fd else c1
  | none => c1

/-- The socket is writable.  `epoll_wait` reports that only for a descriptor
whose mask in the interest list holds `EPOLLOUT`. -/
def writable (hash : List Byte → Nat) (c : Connection) (fd : Int) : Connection :=
  match c.reactor.interest fd with
  | some events => if events &&& EPOLLOUT ≠ 0 then dispatch hash c fd else c
  | none => c

/-- The connection after `handle_connection(fd)` has started and the client has
sent the byte strings `sends`, each arriving after the event loop has handled
the one before. -/
def session (hash : List Byte → Nat) (store : Store) (fd : Int) (h : Nat)
    (sends : List (List Byte)) : Connection :=
  sends.foldl (fun c data => receive hash c fd data) (start store fd h)

end Connection

/-! # Lemmas -/

/-! ## Rounding to binary32 -/

section Rounding

theorem roundToF32_of_lt (n : Nat) (h : n < 2 ^ 24) : roundToF32 n = n := by
  unfold roundToF32
  rw [if_pos h]

/-- The shape of the rounding of a number of at least 25 bits. -/
theorem roundToF32_shape (n : Nat) (h : 2 ^ 24 ≤ n) :
    ∃ e q r, 1 ≤ e ∧ e = Nat.log2 n - 23 ∧ q = n / 2 ^ e ∧ r = n % 2 ^ e ∧
      n = q * 2 ^ e + r ∧ r < 2 ^ e ∧
      2 ^ 23 ≤ q ∧ q < 2 ^ 24 ∧
      roundToF32 n =
        (if r < 2 ^ (e - 1) ∨ (r = 2 ^ (e - 1) ∧ q % 2 = 0) then q else q + 1) * 2 ^ e := by
  have hn0 : n ≠ 0 := by
    intro h0
    rw [h0] at h
    norm_num at h
  have hL1 : 2 ^ Nat.log2 n ≤ n := by
    rw [Nat.log2_eq_log_two]
    exact Nat.pow_log_le_self 2 hn0
  have hL2 : n < 2 ^ (Nat.log2 n + 1) := by
    rw [Nat.log2_eq_log_two]
    exact Nat.lt_pow_succ_log_self (by norm_num) n
  have hL : 24 ≤ Nat.log2 n := by
    by_contra hlt
    have : 2 ^ (Nat.log2 n + 1) ≤ 2 ^ 24 := Nat.pow_le_pow_right (by norm_num) (by omega)
    omega
  have hpos : 0 < 2 ^ (Nat.log2 n - 23) := Nat.two_pow_pos _
  have hsplit : 2 ^ Nat.log2 n = 2 ^ 23 * 2 ^ (Nat.log2 n - 23) := by
    rw [← Nat.pow_add]
    congr 1
    omega
  have hsplit2 : 2 ^ (Nat.log2 n + 1) = 2 ^ 24 * 2 ^ (Nat.log2 n - 23) := by
    rw [← Nat.pow_add]
    congr 1
    omega
  refine ⟨Nat.log2 n - 23, n / 2 ^ (Nat.log2 n - 23), n % 2 ^ (Nat.log2 n - 23),
    by omega, rfl, rfl, rfl, ?_, Nat.mod_lt _ hpos, ?_, ?_, ?_⟩
  · rw [Nat.mul_comm]
    exact (Nat.div_add_mod n _).symm
  · rw [Nat.le_div_iff_mul_le hpos, ← hsplit]
    exact hL1
  · rw [Nat.div_lt_iff_lt_mul hpos, ← hsplit2]
    exact hL2
  · have hnl : ¬ n < 2 ^ 24 := by omega
    unfold roundToF32
    rw [if_neg hnl]
    simp only
    by_cases h1 : n % 2 ^ (Nat.log2 n - 23) < 2 ^ (Nat.log2 n - 23 - 1)
    · simp [h1]
    · by_cases h2 : 2 ^ (Nat.log2 n - 23 - 1) < n % 2 ^ (Nat.log2 n - 23)
      · have h3 : ¬ n % 2 ^ (Nat.log2 n - 23) = 2 ^ (Nat.log2 n - 23 - 1) := by omega
        simp [h1, h2, h3]
      · have h3 : n % 2 ^ (Nat.log2 n - 23) = 2 ^ (Nat.log2 n - 23 - 1) := by omega
        by_cases h4 : n / 2 ^ (Nat.log2 n - 23) % 2 = 0
        · simp [h1, h2, h3, h4]
        · simp [h1, h2, h3, h4]

theorem roundToF32_exact (m i : Nat) (hm : m < 2 ^ 24) :
    roundToF32 (m * 2 ^ i) = m * 2 ^ i := by
  by_cases hlt : m * 2 ^ i < 2 ^ 24
  · exact roundToF32_of_lt _ hlt
  · obtain ⟨e, q, r, he1, _, _, hr, hn, hrlt, hq1, _, hround⟩ :=
      roundToF32_shape (m * 2 ^ i) (by omega)
    have hei : e ≤ i := by
      by_contra hcon
      have h1 : m * 2 ^ i < 2 ^ 24 * 2 ^ i :=
        Nat.mul_lt_mul_of_pos_right hm (Nat.two_pow_pos _)
      have h2 : 2 ^ 24 * 2 ^ i ≤ 2 ^ 23 * 2 ^ e := by
        rw [← Nat.pow_add, ← Nat.pow_add]
        exact Nat.pow_le_pow_right (by norm_num) (by omega)
      have h3 : 2 ^ 23 * 2 ^ e ≤ q * 2 ^ e := Nat.mul_le_mul_right _ hq1
      omega
    have hdvd : 2 ^ e ∣ m * 2 ^ i :=
      Dvd.dvd.mul_left (Nat.pow_dvd_pow 2 hei) m
    have hr0 : r = 0 := by
      rw [hr]
      exact Nat.mod_eq_zero_of_dvd hdvd
    have hhalf : 0 < 2 ^ (e - 1) := Nat.two_pow_pos _
    rw [hround, hr0, if_pos (Or.inl hhalf)]
    rw [hr0] at hn
    omega

theorem roundToF32_bounds (n : Nat) (h : 2 ^ 24 ≤ n) :
    ∃ e q, 1 ≤ e ∧ e = Nat.log2 n - 23 ∧ q = n / 2 ^ e ∧
      q * 2 ^ e ≤ roundToF32 n ∧ roundToF32 n ≤ (q + 1) * 2 ^ e ∧
      2 ^ (e + 23) ≤ q * 2 ^ e ∧ (q + 1) * 2 ^ e ≤ 2 ^ (e + 24) := by
  obtain ⟨e, q, r, he1, he, hq, _, _, _, hq1, hq2, hround⟩ := roundToF32_shape n h
  refine ⟨e, q, he1, he, hq, ?_, ?_, ?_, ?_⟩
  · rw [hround]
    split
    · exact Nat.le_refl _
    · exact Nat.mul_le_mul_right _ (Nat.le_succ q)
  · rw [hround]
    split
    · exact Nat.mul_le_mul_right _ (Nat.le_succ q)
    · exact Nat.le_refl _
  · rw [Nat.pow_add, Nat.mul_comm (2 ^ e)]
    exact Nat.mul_le_mul_right _ hq1
  · rw [Nat.pow_add, Nat.mul_comm (2 ^ e)]
    exact Nat.mul_le_mul_right _ hq2

theorem roundToF32_le_succ_mul (n e q r : Nat)
    (hround : roundToF32 n =
      (if r < 2 ^ (e - 1) ∨ (r = 2 ^ (e - 1) ∧ q % 2 = 0) then q else q + 1) * 2 ^ e) :
    q * 2 ^ e ≤ roundToF32 n ∧ roundToF32 n ≤ (q + 1) * 2 ^ e := by
  rw [hround]
  split
  · exact ⟨Nat.le_refl _, Nat.mul_le_mul_right _ (Nat.le_succ q)⟩
  · exact ⟨Nat.mul_le_mul_right _ (Nat.le_succ q), Nat.le_refl _⟩

theorem roundToF32_mono (a b : Nat) (h : a ≤ b) : roundToF32 a ≤ roundToF32 b := by
  by_cases hb : b < 2 ^ 24
  · rw [roundToF32_of_lt a (by omega), roundToF32_of_lt b hb]
    exact h
  · obtain ⟨eb, qb, rb, heb1, heb, hqb, hrb, hnb, hrblt, hqb1, hqb2, hroundb⟩ :=
      roundToF32_shape b (by omega)
    obtain ⟨hb1, hb2⟩ := roundToF32_le_succ_mul b eb qb rb hroundb
    have hb3 : 2 ^ (eb + 23) ≤ qb * 2 ^ eb := by
      rw [Nat.pow_add, Nat.mul_comm (2 ^ eb)]
      exact Nat.mul_le_mul_right _ hqb1
    by_cases ha : a < 2 ^ 24
    · rw [roundToF32_of_lt a ha]
      have h24 : 2 ^ 24 ≤ 2 ^ (eb + 23) := Nat.pow_le_pow_right (by norm_num) (by omega)
      omega
    · obtain ⟨ea, qa, ra, hea1, hea, hqa, hra, hna, hralt, hqa1, hqa2, hrounda⟩ :=
        roundToF32_shape a (by omega)
      obtain ⟨ha1, ha2⟩ := roundToF32_le_succ_mul a ea qa ra hrounda
      have ha4 : (qa + 1) * 2 ^ ea ≤ 2 ^ (ea + 24) := by
        rw [Nat.pow_add, Nat.mul_comm (2 ^ ea)]
        exact Nat.mul_le_mul_right _ hqa2
      have hlog : Nat.log2 a ≤ Nat.log2 b := by
        rw [Nat.log2_eq_log_two, Nat.log2_eq_log_two]
        exact Nat.log_mono_right h
      by_cases hlt : ea < eb
      · have hp : 2 ^ (ea + 24) ≤ 2 ^ (eb + 23) :=
          Nat.pow_le_pow_right (by norm_num) (by omega)
        omega
      · have hee : eb = ea := by omega
        subst hee
        have hq : qa ≤ qb := by
          rw [hqa, hqb]
          exact Nat.div_le_div_right h
        by_cases hqlt : qa < qb
        · have hm : (qa + 1) * 2 ^ eb ≤ qb * 2 ^ eb := Nat.mul_le_mul_right _ hqlt
          omega
        · have hqq : qb = qa := by omega
          subst hqq
          have hr : ra ≤ rb := by omega
          by_cases cb : rb < 2 ^ (eb - 1) ∨ (rb = 2 ^ (eb - 1) ∧ qb % 2 = 0)
          · have ca : ra < 2 ^ (eb - 1) ∨ (ra = 2 ^ (eb - 1) ∧ qb % 2 = 0) := by
              rcases cb with c1 | ⟨c1, c2⟩
              · exact Or.inl (by omega)
              · by_cases hra2 : ra < 2 ^ (eb - 1)
                · exact Or.inl hra2
                · exact Or.inr ⟨by omega, c2⟩
            rw [hrounda, hroundb, if_pos ca, if_pos cb]
          · rw [hroundb, if_neg cb]
            exact ha2

theorem roundToF32_two_mul (n : Nat) : roundToF32 (2 * n) = 2 * roundToF32 n := by
  by_cases hn : n < 2 ^ 24
  · have h := roundToF32_exact n 1 hn
    rw [roundToF32_of_lt n hn]
    rw [Nat.mul_comm]
    simpa using h
  · obtain ⟨e, q, r, he1, he, hq, hr, hna, hrlt, hq1, hq2, hround⟩ :=
      roundToF32_shape n (by omega)
    obtain ⟨e2, q2, r2, _, he2, hq2', hr2, _, _, _, _, hround2⟩ :=
      roundToF32_shape (2 * n) (by omega)
    have hn0 : n ≠ 0 := by omega
    have hlog : Nat.log2 (2 * n) = Nat.log2 n + 1 := by
      rw [Nat.log2_eq_log_two, Nat.log2_eq_log_two, Nat.mul_comm]
      exact Nat.log_mul_base (by norm_num) hn0
    have hL : 24 ≤ Nat.log2 n := by
      by_contra hlt
      have h1 : n < 2 ^ (Nat.log2 n + 1) := by
        rw [Nat.log2_eq_log_two]
        exact Nat.lt_pow_succ_log_self (by norm_num) n
      have h2 : 2 ^ (Nat.log2 n + 1) ≤ 2 ^ 24 := Nat.pow_le_pow_right (by norm_num) (by omega)
      omega
    have hee : e2 = e + 1 := by omega
    subst hee
    have hpow : 2 ^ (e + 1) = 2 * 2 ^ e := by rw [Nat.pow_succ, Nat.mul_comm]
    have hqq : q2 = q := by
      rw [hq2', hq, hpow]
      exact Nat.mul_div_mul_left _ _ (by norm_num)
    have hrr : r2 = 2 * r := by
      rw [hr2, hr, hpow]
      exact Nat.mul_mod_mul_left _ _ _
    have hhalf : 2 ^ (e + 1 - 1) = 2 * 2 ^ (e - 1) := by
      have : e + 1 - 1 = (e - 1) + 1 := by omega
      rw [this, Nat.pow_succ, Nat.mul_comm]
    subst hqq hrr
    rw [hround2, hround, hhalf, hpow]
    have hc : (2 * r < 2 * 2 ^ (e - 1) ∨ (2 * r = 2 * 2 ^ (e - 1) ∧ q2 % 2 = 0)) ↔
        (r < 2 ^ (e - 1) ∨ (r = 2 ^ (e - 1) ∧ q2 % 2 = 0)) := by
      constructor
      · rintro (c | ⟨c1, c2⟩)
        · exact Or.inl (by omega)
        · exact Or.inr ⟨by omega, c2⟩
      · rintro (c | ⟨c1, c2⟩)
        · exact Or.inl (by omega)
        · exact Or.inr ⟨by omega, c2⟩
    simp only [hc]
    ring

theorem log2_big : Nat.log2 50331649 = 25 := by
  rw [Nat.log2_eq_log_two]
  exact Nat.log_eq_of_pow_le_of_lt_pow (by norm_num) (by norm_num)

theorem roundToF32_big : roundToF32 50331649 = 50331648 := by
  unfold roundToF32
  rw [log2_big]
  norm_num

/-- A capacity `m * 2 ^ i` with `3 * m < 2 ^ 24`: it and its product with `0.75f`
are binary32 numbers. -/
theorem needRehash_exact (n m i : Nat) (hm : 3 * m < 2 ^ 24) (hn : n ≤ 2 ^ 24) :
    needRehash n (m * 2 ^ i) = decide (3 * (m * 2 ^ i) < 4 * n) := by
  have h1 : roundToF32 (m * 2 ^ i) = m * 2 ^ i := roundToF32_exact m i (by omega)
  have h2 : roundToF32 (3 * (m * 2 ^ i)) = 3 * (m * 2 ^ i) := by
    rw [← Nat.mul_assoc]
    exact roundToF32_exact (3 * m) i hm
  have h3 : roundToF32 n = n := by
    by_cases h : n < 2 ^ 24
    · exact roundToF32_of_lt n h
    · have e : n = 1 * 2 ^ 24 := by omega
      rw [e]
      exact roundToF32_exact 1 24 (by norm_num)
  unfold needRehash
  rw [h1, h2, h3]

end Rounding

/-! ## Lists of chains -/

section ListLemmas

variable {α : Type}

theorem getD_set_chain (l : List (List α)) (i j : Nat) (c : List α) (hi : i < l.length) :
    (l.set i c).getD j [] = if i = j then c else l.getD j [] := by
  simp only [List.getD_eq_getElem?_getD, List.getElem?_set]
  by_cases h : i = j
  · subst h
    simp [hi]
  · simp [h]

theorem getD_mem_or_nil (l : List (List α)) (i : Nat) :
    l.getD i [] ∈ l ∨ l.getD i [] = [] := by
  rw [List.getD_eq_getElem?_getD]
  by_cases h : i < l.length
  · left
    rw [List.getElem?_eq_getElem h]
    exact List.getElem_mem h
  · right
    rw [List.getElem?_eq_none (by omega)]
    rfl

theorem mem_getD_of_mem (l : List (List α)) (c : List α) (hc : c ∈ l) :
    ∃ i, i < l.length ∧ l.getD i [] = c := by
  obtain ⟨i, hi, rfl⟩ := List.mem_iff_getElem.mp hc
  exact ⟨i, hi, by simp [List.getD_eq_getElem?_getD, List.getElem?_eq_getElem hi]⟩

theorem mem_flatten_iff_getD (l : List (List α)) (a : α) :
    a ∈ l.flatten ↔ ∃ i, a ∈ l.getD i [] := by
  rw [List.mem_flatten]
  constructor
  · rintro ⟨c, hc, ha⟩
    obtain ⟨i, _, rfl⟩ := mem_getD_of_mem l c hc
    exact ⟨i, ha⟩
  · rintro ⟨i, ha⟩
    rcases getD_mem_or_nil l i with h | h
    · exact ⟨_, h, ha⟩
    · rw [h] at ha
      cases ha

theorem flatten_set_perm (l : List (List α)) (i : Nat) (c : List α) (hi : i < l.length) :
    ((l.set i c).flatten ++ l.getD i []).Perm (c ++ l.flatten) := by
  induction l generalizing i with
  | nil => simp at hi
  | cons x xs ih =>
    cases i with
    | zero =>
      simp only [List.set_cons_zero, List.flatten_cons, List.getD_cons_zero]
      rw [List.append_assoc]
      exact List.Perm.append_left c List.perm_append_comm
    | succ k =>
      simp only [List.set_cons_succ, List.flatten_cons, List.getD_cons_succ]
      have h := ih k (by simpa using hi)
      rw [List.append_assoc]
      refine (List.Perm.append_left x h).trans ?_
      rw [← List.append_assoc, ← List.append_assoc]
      exact List.Perm.append_right _ List.perm_append_comm

theorem flatten_set_cons_perm (l : List (List α)) (i : Nat) (a : α) (hi : i < l.length) :
    ((l.set i (a :: l.getD i [])).flatten).Perm (a :: l.flatten) := by
  have h := flatten_set_perm l i (a :: l.getD i []) hi
  have h2 : ((l.set i (a :: l.getD i [])).flatten ++ l.getD i []).Perm
      ((a :: l.flatten) ++ l.getD i []) := by
    refine h.trans ?_
    simp only [List.cons_append]
    exact List.Perm.cons a List.perm_append_comm
  exact (List.perm_append_right_iff _).mp h2

theorem map_getD_range (l : List (List α)) :
    (List.range l.length).map (fun i => l.getD i []) = l := by
  apply List.ext_getElem
  · simp
  · intro n h1 h2
    simp [List.getD_eq_getElem?_getD, List.getElem?_eq_getElem h2]

theorem foldl_range_getD {β : Type} (f : β → α → β) (l : List (List α)) (init : β) :
    (List.range l.length).foldl (fun acc i => (l.getD i []).foldl f acc) init
      = l.flatten.foldl f init := by
  have h := List.foldl_map (fun i => l.getD i []) (fun acc (c : List α) => c.foldl f acc)
    (List.range l.length) init
  rw [map_getD_range] at h
  rw [← h]
  clear h
  induction l generalizing init with
  | nil => rfl
  | cons x xs ih => simp [List.foldl_append, ih]

end ListLemmas

/-! ## The three chain scans -/

section ChainLemmas

variable {K V : Type} [DecidableEq K]

theorem chainFind_eq_none_iff (k : K) (l : List (HashNode K V)) :
    chainFind k l = none ↔ ∀ n ∈ l, n.key ≠ k := by
  induction l with
  | nil => simp [chainFind]
  | cons x xs ih =>
    by_cases h : x.key = k
    · simp [chainFind, h]
    · simp [chainFind, h, ih]

theorem chainFind_some_mem (k : K) (l : List (HashNode K V)) (v : V)
    (h : chainFind k l = some v) : ∃ n ∈ l, n.key = k ∧ n.value = v := by
  induction l with
  | nil => simp [chainFind] at h
  | cons x xs ih =>
    by_cases hx : x.key = k
    · simp only [chainFind, hx, if_true, Option.some.injEq] at h
      exact ⟨x, List.mem_cons_self _ _, hx, h⟩
    · simp only [chainFind, hx, if_false] at h
      obtain ⟨n, hn, h1, h2⟩ := ih h
      exact ⟨n, List.mem_cons_of_mem _ hn, h1, h2⟩

theorem chainFind_of_mem_nodup (k : K) (l : List (HashNode K V)) (n : HashNode K V)
    (hn : n ∈ l) (hk : n.key = k) (hd : (l.map (fun m => m.key)).Nodup) :
    chainFind k l = some n.value := by
  induction l with
  | nil => cases hn
  | cons x xs ih =>
    simp only [List.map_cons, List.nodup_cons, List.mem_map, not_exists, not_and] at hd
    rcases List.mem_cons.mp hn with rfl | hmem
    · simp [chainFind, hk]
    · have hx : x.key ≠ k := fun hx => hd.1 n hmem (by rw [hk, hx])
      simp only [chainFind, hx, if_false]
      exact ih hmem hd.2

theorem chainAssign_eq_none_iff (k : K) (v : V) (l : List (HashNode K V)) :
    chainAssign k v l = none ↔ chainFind k l = none := by
  induction l with
  | nil => simp [chainAssign, chainFind]
  | cons x xs ih =>
    by_cases h : x.key = k
    · simp [chainAssign, chainFind, h]
    · simp [chainAssign, chainFind, h, ih]

theorem chainAssign_some_spec (k : K) (v : V) (l c : List (HashNode K V))
    (h : chainAssign k v l = some c) :
    c.map (fun m => m.key) = l.map (fun m => m.key) ∧
    c.map (fun m => m.addr) = l.map (fun m => m.addr) ∧
    c.length = l.length ∧ chainFind k c = some v := by
  induction l generalizing c with
  | nil => simp [chainAssign] at h
  | cons x xs ih =>
    by_cases hx : x.key = k
    · simp only [chainAssign, hx, if_true, Option.some.injEq] at h
      subst h
      simp [chainFind, hx]
    · simp only [chainAssign, hx, if_false, Option.map_eq_some'] at h
      obtain ⟨c', hc', rfl⟩ := h
      obtain ⟨h1, h2, h3, h4⟩ := ih c' hc'
      simp [chainFind, hx, h1, h2, h3, h4]

theorem chainUnlink_eq_none_iff (k : K) (l : List (HashNode K V)) :
    chainUnlink k l = none ↔ chainFind k l = none := by
  induction l with
  | nil => simp [chainUnlink, chainFind]
  | cons x xs ih =>
    by_cases h : x.key = k
    · simp [chainUnlink, chainFind, h]
    · simp [chainUnlink, chainFind, h, ih]

theorem chainUnlink_some_spec (k : K) (l c : List (HashNode K V)) (n : HashNode K V)
    (h : chainUnlink k l = some (n, c)) :
    n.key = k ∧ l.Perm (n :: c) ∧ c.Sublist l := by
  induction l generalizing c with
  | nil => simp [chainUnlink] at h
  | cons x xs ih =>
    by_cases hx : x.key = k
    · simp only [chainUnlink, hx, if_true, Option.some.injEq, Prod.mk.injEq] at h
      obtain ⟨rfl, rfl⟩ := h
      exact ⟨hx, List.Perm.refl _, List.sublist_cons_self _ _⟩
    · simp only [chainUnlink, hx, if_false, Option.map_eq_some', Prod.mk.injEq] at h
      obtain ⟨r, hr, rfl, rfl⟩ := h
      obtain ⟨h1, h2, h3⟩ := ih r.2 hr
      refine ⟨h1, ?_, h3.cons₂ x⟩
      exact (List.Perm.cons x h2).trans (List.Perm.swap _ _ _)

theorem chainFind_unlinked (k : K) (l c : List (HashNode K V)) (n : HashNode K V)
    (h : chainUnlink k l = some (n, c)) (hd : (l.map (fun m => m.key)).Nodup) :
    chainFind k c = none := by
  obtain ⟨hk, hp, _⟩ := chainUnlink_some_spec k l c n h
  have hd2 : ((n :: c).map (fun m => m.key)).Nodup := (hp.map _).nodup_iff.mp hd
  simp only [List.map_cons, List.nodup_cons, List.mem_map, not_exists, not_and] at hd2
  rw [chainFind_eq_none_iff]
  intro m hm hmk
  exact hd2.1 m hm (by rw [hmk, hk])

end ChainLemmas

/-! ## The representation invariant of a table -/

section TableLemmas

variable {K V : Type} [DecidableEq K]

theorem getD_replicate_nil {α : Type} (n j : Nat) :
    (List.replicate n ([] : List α)).getD j [] = [] := by
  rw [List.getD_eq_getElem?_getD, List.getElem?_replicate]
  split <;> rfl

theorem sum_length_replicate_nil {α : Type} (n : Nat) :
    ((List.replicate n ([] : List α)).map List.length).sum = 0 := by
  induction n with
  | zero => rfl
  | succ m ih => simp [List.replicate_succ, ih]

theorem sum_length_set {α : Type} (l : List (List α)) (i : Nat) (c : List α)
    (hi : i < l.length) :
    ((l.set i c).map List.length).sum + (l.getD i []).length
      = c.length + (l.map List.length).sum := by
  have h := (flatten_set_perm l i c hi).length_eq
  simpa [List.length_append, List.length_flatten] using h

theorem tableInv_new (hash : K → Nat) (c : Nat) :
    TableInv hash (HashTable.new c : HashTable K V) := by
  refine ⟨?_, ?_, ?_, ?_, ?_⟩
  · simp only [HashTable.new]
    split <;> omega
  · simp [HashTable.new]
  · intro i n hn
    simp only [HashTable.new, getD_replicate_nil] at hn
    cases hn
  · intro i
    simp [HashTable.new, getD_replicate_nil]
  · simp [HashTable.new, sum_length_replicate_nil]

theorem entries_new (c : Nat) : (HashTable.new c : HashTable K V).entries = [] := by
  apply List.eq_nil_of_length_eq_zero
  simp only [HashTable.entries, HashTable.new]
  rw [List.length_flatten, sum_length_replicate_nil]

theorem entries_keys_nodup (hash : K → Nat) (t : HashTable K V) (h : TableInv hash t) :
    (t.entries.map (fun m => m.key)).Nodup := by
  unfold HashTable.entries
  rw [List.map_flatten, List.nodup_flatten]
  constructor
  · intro l hl
    obtain ⟨c, hc, rfl⟩ := List.mem_map.mp hl
    obtain ⟨i, _, rfl⟩ := mem_getD_of_mem _ c hc
    exact h.nodup i
  · rw [List.pairwise_iff_getElem]
    intro i j hi hj hij
    simp only [List.length_map] at hi hj
    simp only [List.getElem_map]
    intro k hk1 hk2
    obtain ⟨n1, hn1, rfl⟩ := List.mem_map.mp hk1
    obtain ⟨n2, hn2, hk⟩ := List.mem_map.mp hk2
    have e1 := h.home i n1 (by
      simpa [List.getD_eq_getElem?_getD, List.getElem?_eq_getElem hi] using hn1)
    have e2 := h.home j n2 (by
      simpa [List.getD_eq_getElem?_getD, List.getElem?_eq_getElem hj] using hn2)
    rw [hk] at e2
    omega

theorem get_eq_some_iff (hash : K → Nat) (t : HashTable K V) (h : TableInv hash t)
    (k : K) (v : V) :
    t.get hash k = some v ↔ ∃ n ∈ t.entries, n.key = k ∧ n.value = v := by
  unfold HashTable.get HashTable.entries
  constructor
  · intro hf
    obtain ⟨n, hn, h1, h2⟩ := chainFind_some_mem _ _ _ hf
    exact ⟨n, (mem_flatten_iff_getD _ _).mpr ⟨_, hn⟩, h1, h2⟩
  · rintro ⟨n, hn, rfl, rfl⟩
    obtain ⟨i, hi⟩ := (mem_flatten_iff_getD _ _).mp hn
    have e := h.home i n hi
    subst e
    exact chainFind_of_mem_nodup _ _ n hi rfl (h.nodup _)

theorem get_eq_none_iff (hash : K → Nat) (t : HashTable K V) (h : TableInv hash t) (k : K) :
    t.get hash k = none ↔ ∀ n ∈ t.entries, n.key ≠ k := by
  constructor
  · intro hg n hn hk
    have := (get_eq_some_iff hash t h k n.value).mpr ⟨n, hn, hk, rfl⟩
    rw [hg] at this
    cases this
  · intro hall
    cases hg : t.get hash k with
    | none => rfl
    | some v =>
      obtain ⟨n, hn, hk, _⟩ := (get_eq_some_iff hash t h k v).mp hg
      exact absurd hk (hall n hn)

/-! ### rehash -/

theorem foldl_relink_spec (hash : K → Nat) (L : Nat) (hL : 0 < L)
    (ns : List (HashNode K V)) (nb : List (List (HashNode K V))) (hnb : nb.length = L) :
    (ns.foldl (HashTable.relink hash L) nb).length = L ∧
    ∀ j, (ns.foldl (HashTable.relink hash L) nb).getD j []
      = (ns.filter (fun n => decide (hash n.key % L = j))).reverse ++ nb.getD j [] := by
  induction ns generalizing nb with
  | nil => simp [hnb]
  | cons n ns ih =>
    have hidx : hash n.key % L < nb.length := by
      rw [hnb]
      exact Nat.mod_lt _ hL
    have hlen : (HashTable.relink hash L nb n).length = L := by
      simp [HashTable.relink, hnb]
    obtain ⟨h1, h2⟩ := ih (HashTable.relink hash L nb n) hlen
    refine ⟨h1, ?_⟩
    intro j
    simp only [List.foldl_cons]
    rw [h2 j]
    simp only [HashTable.relink]
    rw [getD_set_chain _ _ _ _ hidx]
    by_cases hj : hash n.key % L = j
    · subst hj
      simp [List.filter_cons]
    · simp [List.filter_cons, hj]

theorem foldl_relink_perm (hash : K → Nat) (L : Nat) (hL : 0 < L)
    (ns : List (HashNode K V)) (nb : List (List (HashNode K V))) (hnb : nb.length = L) :
    ((ns.foldl (HashTable.relink hash L) nb).flatten).Perm (ns ++ nb.flatten) := by
  induction ns generalizing nb with
  | nil => simp
  | cons n ns ih =>
    have hidx : hash n.key % L < nb.length := by
      rw [hnb]
      exact Nat.mod_lt _ hL
    have hlen : (HashTable.relink hash L nb n).length = L := by
      simp [HashTable.relink, hnb]
    simp only [List.foldl_cons]
    refine (ih _ hlen).trans ?_
    have hp : ((HashTable.relink hash L nb n).flatten).Perm (n :: nb.flatten) :=
      flatten_set_cons_perm nb _ n hidx
    refine (List.Perm.append_left ns hp).trans ?_
    rw [List.cons_append]
    exact List.perm_middle

theorem rehash_buckets (hash : K → Nat) (t : HashTable K V)
    (hlen : t.buckets_.length = t.capacity_) :
    (t.rehash hash).buckets_
      = t.entries.foldl (HashTable.relink hash (t.capacity_ * 2))
          (List.replicate (t.capacity_ * 2) []) := by
  unfold HashTable.rehash HashTable.entries
  simp only
  rw [← hlen]
  exact foldl_range_getD _ _ _

theorem rehash_getD (hash : K → Nat) (t : HashTable K V) (h : TableInv hash t) (j : Nat) :
    (t.rehash hash).buckets_.getD j []
      = (t.entries.filter (fun n => decide (hash n.key % (t.capacity_ * 2) = j))).reverse := by
  rw [rehash_buckets hash t h.len]
  have hpos : 0 < t.capacity_ * 2 := by have := h.cap_pos; omega
  rw [(foldl_relink_spec hash _ hpos t.entries _ (by simp)).2 j, getD_replicate_nil]
  simp

theorem rehash_entries_perm (hash : K → Nat) (t : HashTable K V) (h : TableInv hash t) :
    (t.rehash hash).entries.Perm t.entries := by
  have hpos : 0 < t.capacity_ * 2 := by have := h.cap_pos; omega
  have hp := foldl_relink_perm hash _ hpos t.entries
    (List.replicate (t.capacity_ * 2) []) (by simp)
  have hnil : (List.replicate (t.capacity_ * 2) ([] : List (HashNode K V))).flatten = [] := by
    apply List.eq_nil_of_length_eq_zero
    rw [List.length_flatten, sum_length_replicate_nil]
  rw [hnil, List.append_nil] at hp
  show ((t.rehash hash).buckets_.flatten).Perm t.entries
  rw [rehash_buckets hash t h.len]
  exact hp

theorem tableInv_rehash (hash : K → Nat) (t : HashTable K V) (h : TableInv hash t) :
    TableInv hash (t.rehash hash) := by
  have hpos : 0 < t.capacity_ * 2 := by have := h.cap_pos; omega
  refine ⟨hpos, ?_, ?_, ?_, ?_⟩
  · rw [rehash_buckets hash t h.len]
    exact (foldl_relink_spec hash _ hpos t.entries _ (by simp)).1
  · intro i n hn
    rw [rehash_getD hash t h] at hn
    simpa using (List.mem_filter.mp (List.mem_reverse.mp hn)).2
  · intro i
    rw [rehash_getD hash t h, List.map_reverse, List.nodup_reverse]
    exact ((List.filter_sublist _).map _).nodup (entries_keys_nodup hash t h)
  · have hl := (rehash_entries_perm hash t h).length_eq
    unfold HashTable.entries at hl
    rw [List.length_flatten, List.length_flatten] at hl
    rw [hl, ← h.size_eq]
    rfl

theorem get_rehash (hash : K → Nat) (t : HashTable K V) (h : TableInv hash t) (k : K) :
    (t.rehash hash).get hash k = t.get hash k := by
  apply Option.ext
  intro v
  simp only [Option.mem_def]
  rw [get_eq_some_iff hash _ (tableInv_rehash hash t h), get_eq_some_iff hash _ h]
  constructor
  · rintro ⟨n, hn, h1, h2⟩
    exact ⟨n, (rehash_entries_perm hash t h).mem_iff.mp hn, h1, h2⟩
  · rintro ⟨n, hn, h1, h2⟩
    exact ⟨n, (rehash_entries_perm hash t h).mem_iff.mpr hn, h1, h2⟩

/-! ### put -/

theorem put_found (hash : K → Nat) (t : HashTable K V) (k : K) (v : V)
    (c : List (HashNode K V))
    (hc : chainAssign k v (t.buckets_.getD (hash k % t.capacity_) []) = some c) :
    t.put hash k v = { t with buckets_ := t.buckets_.set (hash k % t.capacity_) c } := by
  unfold HashTable.put
  simp only [hc]

theorem put_absent (hash : K → Nat) (t : HashTable K V) (k : K) (v : V)
    (hc : chainFind k (t.buckets_.getD (hash k % t.capacity_) []) = none) :
    t.put hash k v =
      if needRehash (t.size_ + 1) t.capacity_ then (t.linkNew hash k v).rehash hash
      else t.linkNew hash k v := by
  have hc2 := (chainAssign_eq_none_iff k v _).mpr hc
  unfold HashTable.put
  simp only [hc2]
  rfl

theorem idx_lt (hash : K → Nat) (t : HashTable K V) (h : TableInv hash t) (k : K) :
    hash k % t.capacity_ < t.buckets_.length := by
  rw [h.len]
  exact Nat.mod_lt _ h.cap_pos

theorem tableInv_linkNew (hash : K → Nat) (t : HashTable K V) (h : TableInv hash t)
    (k : K) (v : V)
    (hc : chainFind k (t.buckets_.getD (hash k % t.capacity_) []) = none) :
    TableInv hash (t.linkNew hash k v) := by
  have hi := idx_lt hash t h k
  refine ⟨h.cap_pos, ?_, ?_, ?_, ?_⟩
  · simp [HashTable.linkNew, h.len]
  · intro i n hn
    simp only [HashTable.linkNew] at hn ⊢
    rw [getD_set_chain _ _ _ _ hi] at hn
    split at hn
    · rename_i hij
      rcases List.mem_cons.mp hn with rfl | hm
      · exact hij
      · exact h.home i n (hij ▸ hm)
    · exact h.home i n hn
  · intro i
    simp only [HashTable.linkNew]
    rw [getD_set_chain _ _ _ _ hi]
    split
    · simp only [List.map_cons, List.nodup_cons, List.mem_map, not_exists, not_and]
      refine ⟨?_, h.nodup _⟩
      intro m hm hk
      exact (chainFind_eq_none_iff k _).mp hc m hm hk
    · exact h.nodup i
  · have hs := sum_length_set t.buckets_ (hash k % t.capacity_)
      (({ addr := t.nodePool_.allocate.1, key := k, value := v } : HashNode K V)
        :: t.buckets_.getD (hash k % t.capacity_) []) hi
    simp only [HashTable.linkNew]
    simp only [List.length_cons] at hs
    have := h.size_eq
    omega

theorem tableInv_put (hash : K → Nat) (t : HashTable K V) (h : TableInv hash t)
    (k : K) (v : V) : TableInv hash (t.put hash k v) := by
  have hi := idx_lt hash t h k
  cases hc : chainAssign k v (t.buckets_.getD (hash k % t.capacity_) []) with
  | some c =>
    rw [put_found hash t k v c hc]
    obtain ⟨hk, _, hl, _⟩ := chainAssign_some_spec k v _ c hc
    refine ⟨h.cap_pos, ?_, ?_, ?_, ?_⟩
    · simp [h.len]
    · intro i n hn
      simp only at hn ⊢
      rw [getD_set_chain _ _ _ _ hi] at hn
      split at hn
      · rename_i hij
        have hmem : n.key ∈ c.map (fun m => m.key) := List.mem_map_of_mem _ hn
        rw [hk] at hmem
        obtain ⟨m, hm, hmk⟩ := List.mem_map.mp hmem
        rw [← hmk]
        exact h.home i m (hij ▸ hm)
      · exact h.home i n hn
    · intro i
      simp only
      rw [getD_set_chain _ _ _ _ hi]
      split
      · rw [hk]
        exact h.nodup _
      · exact h.nodup i
    · have hs := sum_length_set t.buckets_ (hash k % t.capacity_) c hi
      simp only
      have := h.size_eq
      omega
  | none =>
    have hf := (chainAssign_eq_none_iff k v _).mp hc
    rw [put_absent hash t k v hf]
    have h1 := tableInv_linkNew hash t h k v hf
    split
    · exact tableInv_rehash hash _ h1
    · exact h1

theorem get_linkNew_self (hash : K → Nat) (t : HashTable K V) (h : TableInv hash t)
    (k : K) (v : V) : (t.linkNew hash k v).get hash k = some v := by
  have hi := idx_lt hash t h k
  simp only [HashTable.get, HashTable.linkNew]
  rw [getD_set_chain _ _ _ _ hi]
  simp [chainFind]

theorem get_put_self (hash : K → Nat) (t : HashTable K V) (h : TableInv hash t)
    (k : K) (v : V) : (t.put hash k v).get hash k = some v := by
  have hi := idx_lt hash t h k
  cases hc : chainAssign k v (t.buckets_.getD (hash k % t.capacity_) []) with
  | some c =>
    rw [put_found hash t k v c hc]
    obtain ⟨_, _, _, hv⟩ := chainAssign_some_spec k v _ c hc
    simp only [HashTable.get]
    rw [getD_set_chain _ _ _ _ hi]
    simpa using hv
  | none =>
    have hf := (chainAssign_eq_none_iff k v _).mp hc
    rw [put_absent hash t k v hf]
    split
    · rw [get_rehash hash _ (tableInv_linkNew hash t h k v hf)]
      exact get_linkNew_self hash t h k v
    · exact get_linkNew_self hash t h k v

/-! ### erase -/

theorem erase_found (hash : K → Nat) (t : HashTable K V) (k : K)
    (n : HashNode K V) (c : List (HashNode K V))
    (hc : chainUnlink k (t.buckets_.getD (hash k % t.capacity_) []) = some (n, c)) :
    t.erase hash k = (true, { t with
      buckets_ := t.buckets_.set (hash k % t.capacity_) c
      nodePool_ := t.nodePool_.deallocate n.addr
      size_ := t.size_ - 1 }) := by
  unfold HashTable.erase
  simp only [hc]

theorem erase_absent (hash : K → Nat) (t : HashTable K V) (k : K)
    (hc : chainFind k (t.buckets_.getD (hash k % t.capacity_) []) = none) :
    t.erase hash k = (false, t) := by
  have hc2 := (chainUnlink_eq_none_iff k _).mpr hc
  unfold HashTable.erase
  simp only [hc2]

theorem tableInv_erase (hash : K → Nat) (t : HashTable K V) (h : TableInv hash t)
    (k : K) : TableInv hash (t.erase hash k).2 := by
  have hi := idx_lt hash t h k
  cases hc : chainUnlink k (t.buckets_.getD (hash k % t.capacity_) []) with
  | none =>
    rw [erase_absent hash t k ((chainUnlink_eq_none_iff k _).mp hc)]
    exact h
  | some r =>
    obtain ⟨n, c⟩ := r
    rw [erase_found hash t k n c hc]
    obtain ⟨_, hp, hsub⟩ := chainUnlink_some_spec k _ c n hc
    refine ⟨h.cap_pos, ?_, ?_, ?_, ?_⟩
    · simp [h.len]
    · intro i m hm
      simp only at hm ⊢
      rw [getD_set_chain _ _ _ _ hi] at hm
      split at hm
      · rename_i hij
        exact h.home i m (hij ▸ hsub.subset hm)
      · exact h.home i m hm
    · intro i
      simp only
      rw [getD_set_chain _ _ _ _ hi]
      split
      · exact (hsub.map _).nodup (h.nodup _)
      · exact h.nodup i
    · have hs := sum_length_set t.buckets_ (hash k % t.capacity_) c hi
      have hl := hp.length_eq
      simp only [List.length_cons] at hl
      simp only
      have := h.size_eq
      omega

theorem get_erase_self (hash : K → Nat) (t : HashTable K V) (h : TableInv hash t)
    (k : K) : (t.erase hash k).2.get hash k = none := by
  have hi := idx_lt hash t h k
  cases hc : chainUnlink k (t.buckets_.getD (hash k % t.capacity_) []) with
  | none =>
    rw [erase_absent hash t k ((chainUnlink_eq_none_iff k _).mp hc)]
    exact (chainUnlink_eq_none_iff k _).mp hc
  | some r =>
    obtain ⟨n, c⟩ := r
    rw [erase_found hash t k n c hc]
    simp only [HashTable.get]
    rw [getD_set_chain _ _ _ _ hi]
    simpa using chainFind_unlinked k _ c n hc (h.nodup _)

theorem tableInv_of_reachable (hash : K → Nat) (t : HashTable K V)
    (h : HashTable.Reachable hash t) : TableInv hash t := by
  induction h with
  | init c => exact tableInv_new hash c
  | put t k v _ ih => exact tableInv_put hash t ih k v
  | erase t k _ ih => exact tableInv_erase hash t ih k

theorem mem_entries_put (hash : K → Nat) (t : HashTable K V) (h : TableInv hash t)
    (k : K) (v : V) (n : HashNode K V) (hn : n ∈ (t.put hash k v).entries) :
    n.key = k ∨ ∃ m ∈ t.entries, m.key = n.key := by
  have hi := idx_lt hash t h k
  cases hc : chainAssign k v (t.buckets_.getD (hash k % t.capacity_) []) with
  | some c =>
    rw [put_found hash t k v c hc] at hn
    obtain ⟨hk, _, _, _⟩ := chainAssign_some_spec k v _ c hc
    obtain ⟨i, hni⟩ := (mem_flatten_iff_getD _ _).mp hn
    simp only at hni
    rw [getD_set_chain _ _ _ _ hi] at hni
    right
    split at hni
    · have hmem : n.key ∈ c.map (fun m => m.key) := List.mem_map_of_mem _ hni
      rw [hk] at hmem
      obtain ⟨m, hm, hmk⟩ := List.mem_map.mp hmem
      exact ⟨m, (mem_flatten_iff_getD _ _).mpr ⟨_, hm⟩, hmk⟩
    · exact ⟨n, (mem_flatten_iff_getD _ _).mpr ⟨i, hni⟩, rfl⟩
  | none =>
    have hf := (chainAssign_eq_none_iff k v _).mp hc
    rw [put_absent hash t k v hf] at hn
    have hlink : ∀ m, m ∈ (t.linkNew hash k v).entries → m.key = k ∨ m ∈ t.entries := by
      intro m hm
      obtain ⟨i, hmi⟩ := (mem_flatten_iff_getD _ _).mp hm
      simp only [HashTable.linkNew] at hmi
      rw [getD_set_chain _ _ _ _ hi] at hmi
      split at hmi
      · rcases List.mem_cons.mp hmi with rfl | hm2
        · exact Or.inl rfl
        · exact Or.inr ((mem_flatten_iff_getD _ _).mpr ⟨_, hm2⟩)
      · exact Or.inr ((mem_flatten_iff_getD _ _).mpr ⟨i, hmi⟩)
    have hn2 : n ∈ (t.linkNew hash k v).entries := by
      split at hn
      · exact (rehash_entries_perm hash _ (tableInv_linkNew hash t h k v hf)).mem_iff.mp hn
      · exact hn
    rcases hlink n hn2 with h1 | h1
    · exact Or.inl h1
    · exact Or.inr ⟨n, h1, rfl⟩

theorem mem_entries_erase (hash : K → Nat) (t : HashTable K V) (h : TableInv hash t)
    (k : K) (n : HashNode K V) (hn : n ∈ (t.erase hash k).2.entries) : n ∈ t.entries := by
  have hi := idx_lt hash t h k
  cases hc : chainUnlink k (t.buckets_.getD (hash k % t.capacity_) []) with
  | none =>
    rw [erase_absent hash t k ((chainUnlink_eq_none_iff k _).mp hc)] at hn
    exact hn
  | some r =>
    obtain ⟨m, c⟩ := r
    rw [erase_found hash t k m c hc] at hn
    obtain ⟨_, _, hsub⟩ := chainUnlink_some_spec k _ c m hc
    obtain ⟨i, hni⟩ := (mem_flatten_iff_getD _ _).mp hn
    simp only at hni
    rw [getD_set_chain _ _ _ _ hi] at hni
    split at hni
    · exact (mem_flatten_iff_getD _ _).mpr ⟨_, hsub.subset hni⟩
    · exact (mem_flatten_iff_getD _ _).mpr ⟨i, hni⟩

end TableLemmas

/-! ### The load factor -/

section LoadLemmas

variable {K V : Type} [DecidableEq K]

theorem put_absent_fields (hash : K → Nat) (t : HashTable K V) (k : K) (v : V)
    (hk : t.get hash k = none) :
    (t.put hash k v).size_ = t.size_ + 1 ∧
    (t.put hash k v).capacity_ =
      if needRehash (t.size_ + 1) t.capacity_ then t.capacity_ * 2 else t.capacity_ := by
  rw [put_absent hash t k v hk]
  split <;> exact ⟨rfl, rfl⟩

theorem put_found_fields (hash : K → Nat) (t : HashTable K V) (k : K) (v : V)
    (c : List (HashNode K V))
    (hc : chainAssign k v (t.buckets_.getD (hash k % t.capacity_) []) = some c) :
    (t.put hash k v).size_ = t.size_ ∧ (t.put hash k v).capacity_ = t.capacity_ := by
  rw [put_found hash t k v c hc]
  exact ⟨rfl, rfl⟩

theorem erase_fields (hash : K → Nat) (t : HashTable K V) (k : K) :
    (t.erase hash k).2.size_ ≤ t.size_ ∧ (t.erase hash k).2.capacity_ = t.capacity_ := by
  cases hc : chainUnlink k (t.buckets_.getD (hash k % t.capacity_) []) with
  | none =>
    rw [erase_absent hash t k ((chainUnlink_eq_none_iff k _).mp hc)]
    exact ⟨Nat.le_refl _, rfl⟩
  | some r =>
    obtain ⟨n, c⟩ := r
    rw [erase_found hash t k n c hc]
    exact ⟨Nat.sub_le _ _, rfl⟩

theorem exact_half (c : Nat) (h : ∃ m i, c * 2 = m * 2 ^ i ∧ 3 * m < 2 ^ 24) :
    ∃ m i, c = m * 2 ^ i ∧ 3 * m < 2 ^ 24 := by
  obtain ⟨m, i, hc, hm⟩ := h
  cases i with
  | zero =>
    refine ⟨c, 0, by simp, ?_⟩
    simp at hc
    omega
  | succ j =>
    refine ⟨m, j, ?_, hm⟩
    rw [Nat.pow_succ, ← Nat.mul_assoc] at hc
    exact Nat.eq_of_mul_eq_mul_right (by norm_num) hc

theorem load_le_of_reachable (hash : K → Nat) (t : HashTable K V)
    (h : HashTable.Reachable hash t) :
    (∃ m i, t.capacity_ = m * 2 ^ i ∧ 3 * m < 2 ^ 24) →
      4 * roundToF32 t.size_ ≤ 3 * t.capacity_ := by
  induction h with
  | init c =>
    intro _
    rw [show (HashTable.new c : HashTable K V).size_ = 0 from rfl,
      roundToF32_of_lt 0 (by norm_num)]
    omega
  | put t k v hr ih =>
    intro hex
    have hinv := tableInv_of_reachable hash t hr
    cases hc : chainAssign k v (t.buckets_.getD (hash k % t.capacity_) []) with
    | some c =>
      obtain ⟨h1, h2⟩ := put_found_fields hash t k v c hc
      rw [h1, h2]
      rw [h2] at hex
      exact ih hex
    | none =>
      have hk : t.get hash k = none := (chainAssign_eq_none_iff k v _).mp hc
      obtain ⟨h1, h2⟩ := put_absent_fields hash t k v hk
      rw [h1, h2]
      rw [h2] at hex
      by_cases hneed : needRehash (t.size_ + 1) t.capacity_ = true
      · rw [if_pos hneed] at hex ⊢
        have hprev := ih (exact_half _ hex)
        have hpos := hinv.cap_pos
        by_cases h0 : t.size_ = 0
        · rw [h0, roundToF32_of_lt 1 (by norm_num)]
          omega
        · have h := roundToF32_mono (t.size_ + 1) (2 * t.size_) (by omega)
          rw [roundToF32_two_mul] at h
          omega
      · rw [if_neg hneed] at hex ⊢
        obtain ⟨m, i, hcap, hm⟩ := hex
        have h1 : roundToF32 (m * 2 ^ i) = m * 2 ^ i := roundToF32_exact m i (by omega)
        have h2 : roundToF32 (3 * (m * 2 ^ i)) = 3 * (m * 2 ^ i) := by
          rw [← Nat.mul_assoc]
          exact roundToF32_exact (3 * m) i hm
        unfold needRehash at hneed
        rw [hcap, h1, h2] at hneed
        rw [hcap]
        simpa using hneed
  | erase t k hr ih =>
    intro hex
    obtain ⟨h1, h2⟩ := erase_fields hash t k
    rw [h2] at hex ⊢
    have := roundToF32_mono _ _ h1
    have := ih hex
    omega

theorem new_capacity (c : Nat) (hc : 0 < c) : (HashTable.new c : HashTable K V).capacity_ = c := by
  simp only [HashTable.new, if_pos hc]

theorem needRehash_fill (n : Nat) (hn : n ≤ 50331648) : needRehash n (2 ^ 26) = false := by
  have h1 : roundToF32 (2 ^ 26) = 2 ^ 26 := by
    have h := roundToF32_exact 1 26 (by norm_num)
    rwa [Nat.one_mul] at h
  have h2 : roundToF32 (3 * 2 ^ 26) = 3 * 2 ^ 26 := roundToF32_exact 3 26 (by norm_num)
  have h3 : roundToF32 50331648 = 50331648 := by
    have h := roundToF32_exact 3 24 (by norm_num)
    norm_num at h
    exact h
  have h4 := roundToF32_mono n 50331648 hn
  unfold needRehash
  rw [h1, h2]
  rw [h3] at h4
  rw [decide_eq_false_iff_not]
  norm_num
  omega

theorem filledTable_succ (n : Nat) :
    filledTable (n + 1) = (filledTable n).put (fun x => x) n 0 := by
  unfold filledTable
  rw [List.range_succ, List.foldl_append]
  rfl

theorem filledTable_spec (n : Nat) (hn : n ≤ 50331648) :
    HashTable.Reachable (fun x => x) (filledTable n) ∧
    (filledTable n).capacity_ = 2 ^ 26 ∧ (filledTable n).size_ = n ∧
    ∀ node ∈ (filledTable n).entries, node.key < n := by
  induction n with
  | zero =>
    refine ⟨HashTable.Reachable.init _, new_capacity _ (Nat.two_pow_pos 26), rfl, ?_⟩
    intro node hnode
    have he : (filledTable 0).entries = [] := entries_new (2 ^ 26)
    rw [he] at hnode
    cases hnode
  | succ m ih =>
    obtain ⟨hr, hcap, hsize, hkeys⟩ := ih (by omega)
    have hinv := tableInv_of_reachable _ _ hr
    have habs : (filledTable m).get (fun x => x) m = none := by
      rw [get_eq_none_iff _ _ hinv]
      intro node hnode hk
      have := hkeys node hnode
      omega
    obtain ⟨h1, h2⟩ := put_absent_fields (fun x => x) (filledTable m) m 0 habs
    rw [hsize, hcap, needRehash_fill (m + 1) hn] at h2
    rw [filledTable_succ]
    refine ⟨HashTable.Reachable.put _ _ _ hr, by simpa using h2, by rw [h1, hsize], ?_⟩
    intro node hnode
    rcases mem_entries_put _ _ hinv m 0 node hnode with h | ⟨m2, hm2, hk⟩
    · omega
    · have := hkeys m2 hm2
      omega

theorem bigTable_eq : bigTable = filledTable 50331648 := rfl

theorem needRehash_big : needRehash 50331649 (2 ^ 26) = false := by
  have h1 : roundToF32 (2 ^ 26) = 2 ^ 26 := by
    have h := roundToF32_exact 1 26 (by norm_num)
    rwa [Nat.one_mul] at h
  have h2 : roundToF32 (3 * 2 ^ 26) = 3 * 2 ^ 26 := roundToF32_exact 3 26 (by norm_num)
  have h3 : decide (3 * 2 ^ 26 < 4 * 50331648) = false := by decide
  unfold needRehash
  rw [h1, h2, roundToF32_big]
  exact h3

theorem put_not_resized (t : HashTable Nat Nat)
    (hr : HashTable.Reachable (fun x => x) t)
    (hcap : t.capacity_ = 2 ^ 26) (hsize : t.size_ = 50331648)
    (hkeys : ∀ node ∈ t.entries, node.key < 50331648) :
    HashTable.Reachable (fun x => x) t ∧
    t.capacity_ = 2 ^ 26 ∧ t.size = 50331648 ∧
    t.get (fun x => x) 50331648 = none ∧
    3 * t.capacity_ < 4 * (t.size + 1) ∧
    (t.put (fun x => x) 50331648 0).capacity_ = t.capacity_ ∧
    ¬ (4 * (t.put (fun x => x) 50331648 0).size
        ≤ 3 * (t.put (fun x => x) 50331648 0).capacity_) := by
  have hinv := tableInv_of_reachable _ _ hr
  have habs : t.get (fun x => x) 50331648 = none := by
    rw [get_eq_none_iff _ _ hinv]
    intro node hnode hk
    have := hkeys node hnode
    omega
  have e : (50331648 : Nat) + 1 = 50331649 := by norm_num
  obtain ⟨h1, h2⟩ := put_absent_fields (fun x => x) t 50331648 0 habs
  rw [hsize, hcap, e, needRehash_big] at h2
  rw [hsize, e] at h1
  have h3 : (t.put (fun x => x) 50331648 0).capacity_ = 2 ^ 26 := by
    rw [h2]
    simp
  simp only [HashTable.size]
  refine ⟨hr, hcap, hsize, habs, ?_, ?_, ?_⟩
  · rw [hcap, hsize]
    norm_num
  · rw [h3, hcap]
  · rw [h1, h3]
    norm_num

end LoadLemmas

/-! ## The representation invariant of the store -/

section StoreLemmas

variable {K V : Type} [DecidableEq K]

theorem foldl_push_eq_replicate {α : Type} (x : α) (n : Nat) :
    (List.range n).foldl (fun acc _ => acc ++ [x]) [] = List.replicate n x := by
  induction n with
  | zero => rfl
  | succ m ih => rw [List.range_succ, List.foldl_append, ih, List.replicate_succ']; rfl

theorem new_shards (n : Nat) :
    (ShardedHashMap.new n : ShardedHashMap K V).shards_ = List.replicate n HashTable.new := by
  simp only [ShardedHashMap.new]
  exact foldl_push_eq_replicate _ n

theorem storeInv_new (hash : K → Nat) (n : Nat) (hn : 0 < n) :
    StoreInv hash (ShardedHashMap.new n : ShardedHashMap K V) := by
  refine ⟨hn, ?_, ?_⟩
  · rw [new_shards]
    simp [ShardedHashMap.new]
  · intro i t ht
    rw [new_shards, List.getElem?_replicate] at ht
    split at ht
    · cases ht
      refine ⟨tableInv_new hash _, ?_⟩
      intro m hm
      rw [entries_new] at hm
      cases hm
    · cases ht

theorem shard_exists (hash : K → Nat) (s : ShardedHashMap K V) (h : StoreInv hash s) (k : K) :
    ∃ t, s.shards_[hash k % s.numShards_]? = some t := by
  have hlt : hash k % s.numShards_ < s.shards_.length := by
    rw [h.len]
    exact Nat.mod_lt _ h.pos
  exact ⟨_, List.getElem?_eq_getElem hlt⟩

theorem store_put_eq (hash : K → Nat) (s : ShardedHashMap K V) (k : K) (v : V)
    (t : HashTable K V) (ht : s.shards_[hash k % s.numShards_]? = some t) :
    s.put hash k v =
      { s with shards_ := s.shards_.set (hash k % s.numShards_) (t.put hash k v) } := by
  simp only [ShardedHashMap.put, ShardedHashMap.getShardIndex, ht]

theorem store_get_eq (hash : K → Nat) (s : ShardedHashMap K V) (k : K)
    (t : HashTable K V) (ht : s.shards_[hash k % s.numShards_]? = some t) :
    s.get hash k = t.get hash k := by
  simp only [ShardedHashMap.get, ShardedHashMap.getShardIndex, ht]

theorem store_erase_eq (hash : K → Nat) (s : ShardedHashMap K V) (k : K)
    (t : HashTable K V) (ht : s.shards_[hash k % s.numShards_]? = some t) :
    s.erase hash k = ((t.erase hash k).1,
      { s with shards_ := s.shards_.set (hash k % s.numShards_) (t.erase hash k).2 }) := by
  simp only [ShardedHashMap.erase, ShardedHashMap.getShardIndex, ht]

theorem getElem?_set_shard {α : Type} (l : List α) (i j : Nat) (x : α) (hi : i < l.length) :
    (l.set i x)[j]? = if i = j then some x else l[j]? := by
  rw [List.getElem?_set]
  by_cases h : i = j
  · subst h
    simp [hi]
  · simp [h]

theorem storeInv_set (hash : K → Nat) (s : ShardedHashMap K V) (h : StoreInv hash s)
    (i : Nat) (t : HashTable K V) (ht : TableInv hash t)
    (hk : ∀ n ∈ t.entries, hash n.key % s.numShards_ = i) :
    StoreInv hash { s with shards_ := s.shards_.set i t } := by
  refine ⟨h.pos, ?_, ?_⟩
  · simp [h.len]
  · intro j u hu
    simp only at hu ⊢
    by_cases hi : i < s.shards_.length
    · rw [getElem?_set_shard _ _ _ _ hi] at hu
      split at hu
      · rename_i hij
        cases hu
        subst hij
        exact ⟨ht, hk⟩
      · exact h.shard j u hu
    · rw [List.set_eq_of_length_le (by omega)] at hu
      exact h.shard j u hu

theorem storeInv_put (hash : K → Nat) (s : ShardedHashMap K V) (h : StoreInv hash s)
    (k : K) (v : V) : StoreInv hash (s.put hash k v) := by
  obtain ⟨t, ht⟩ := shard_exists hash s h k
  rw [store_put_eq hash s k v t ht]
  obtain ⟨hti, htk⟩ := h.shard _ t ht
  apply storeInv_set hash s h _ _ (tableInv_put hash t hti k v)
  intro n hn
  rcases mem_entries_put hash t hti k v n hn with h1 | ⟨m, hm, hmk⟩
  · rw [h1]
  · rw [← hmk]
    exact htk m hm

theorem storeInv_erase (hash : K → Nat) (s : ShardedHashMap K V) (h : StoreInv hash s)
    (k : K) : StoreInv hash (s.erase hash k).2 := by
  obtain ⟨t, ht⟩ := shard_exists hash s h k
  rw [store_erase_eq hash s k t ht]
  obtain ⟨hti, htk⟩ := h.shard _ t ht
  apply storeInv_set hash s h _ _ (tableInv_erase hash t hti k)
  intro n hn
  exact htk n (mem_entries_erase hash t hti k n hn)

theorem storeInv_of_reachable (hash : K → Nat) (s : ShardedHashMap K V)
    (h : ShardedHashMap.Reachable hash s) : StoreInv hash s := by
  induction h with
  | init n hn => exact storeInv_new hash n hn
  | put s k v _ ih => exact storeInv_put hash s ih k v
  | erase s k _ ih => exact storeInv_erase hash s ih k

theorem store_get_put_self (hash : K → Nat) (s : ShardedHashMap K V) (h : StoreInv hash s)
    (k : K) (v : V) : (s.put hash k v).get hash k = some v := by
  obtain ⟨t, ht⟩ := shard_exists hash s h k
  have hlt : hash k % s.numShards_ < s.shards_.length := by
    rw [h.len]
    exact Nat.mod_lt _ h.pos
  rw [store_put_eq hash s k v t ht]
  rw [store_get_eq hash _ k (t.put hash k v) (by simp [getElem?_set_shard _ _ _ _ hlt])]
  exact get_put_self hash t (h.shard _ t ht).1 k v

theorem store_get_erase_self (hash : K → Nat) (s : ShardedHashMap K V) (h : StoreInv hash s)
    (k : K) : (s.erase hash k).2.get hash k = none := by
  obtain ⟨t, ht⟩ := shard_exists hash s h k
  have hlt : hash k % s.numShards_ < s.shards_.length := by
    rw [h.len]
    exact Nat.mod_lt _ h.pos
  rw [store_erase_eq hash s k t ht]
  rw [store_get_eq hash _ k (t.erase hash k).2 (by simp [getElem?_set_shard _ _ _ _ hlt])]
  exact get_erase_self hash t (h.shard _ t ht).1 k

theorem map_length_set_same {α : Type} (l : List (List α)) (i : Nat) (c : List α)
    (hc : c.length = (l.getD i []).length) :
    (l.set i c).map List.length = l.map List.length := by
  apply List.ext_getElem
  · simp
  · intro n h1 h2
    simp only [List.length_map, List.length_set] at h1 h2
    simp only [List.getElem_map, List.getElem_set]
    split
    · rename_i hin
      subst hin
      rw [hc, List.getD_eq_getElem?_getD, List.getElem?_eq_getElem h2]
      rfl
    · rfl

theorem store_mem_entries (s : ShardedHashMap K V) (n : HashNode K V) :
    n ∈ s.entries ↔
      ∃ (i : Nat) (t : HashTable K V), s.shards_[i]? = some t ∧ n ∈ t.entries := by
  unfold ShardedHashMap.entries
  rw [List.mem_flatten]
  constructor
  · rintro ⟨l, hl, hn⟩
    obtain ⟨t, ht, rfl⟩ := List.mem_map.mp hl
    obtain ⟨i, hi⟩ := List.mem_iff_getElem?.mp ht
    exact ⟨i, t, hi, hn⟩
  · rintro ⟨i, t, hi, hn⟩
    exact ⟨t.entries, List.mem_map.mpr ⟨t, List.mem_iff_getElem?.mpr ⟨i, hi⟩, rfl⟩, hn⟩

theorem store_keys_nodup (hash : K → Nat) (s : ShardedHashMap K V) (h : StoreInv hash s) :
    (s.entries.map (fun m => m.key)).Nodup := by
  unfold ShardedHashMap.entries
  rw [List.map_flatten, List.nodup_flatten]
  constructor
  · intro l hl
    obtain ⟨l2, hl2, rfl⟩ := List.mem_map.mp hl
    obtain ⟨t, ht, rfl⟩ := List.mem_map.mp hl2
    obtain ⟨i, hi⟩ := List.mem_iff_getElem?.mp ht
    exact entries_keys_nodup hash t (h.shard i t hi).1
  · rw [List.pairwise_iff_getElem]
    intro i j hi hj hij
    simp only [List.length_map] at hi hj
    simp only [List.getElem_map]
    intro k hk1 hk2
    obtain ⟨n1, hn1, rfl⟩ := List.mem_map.mp hk1
    obtain ⟨n2, hn2, hk⟩ := List.mem_map.mp hk2
    have e1 := (h.shard i _ (List.getElem?_eq_getElem hi)).2 n1 hn1
    have e2 := (h.shard j _ (List.getElem?_eq_getElem hj)).2 n2 hn2
    rw [hk] at e2
    omega

theorem store_get_eq_some_iff (hash : K → Nat) (s : ShardedHashMap K V)
    (h : StoreInv hash s) (k : K) (v : V) :
    s.get hash k = some v ↔ ∃ n ∈ s.entries, n.key = k ∧ n.value = v := by
  obtain ⟨t, ht⟩ := shard_exists hash s h k
  rw [store_get_eq hash s k t ht, get_eq_some_iff hash t (h.shard _ t ht).1]
  constructor
  · rintro ⟨n, hn, h1, h2⟩
    exact ⟨n, (store_mem_entries s n).mpr ⟨_, t, ht, hn⟩, h1, h2⟩
  · rintro ⟨n, hn, h1, h2⟩
    obtain ⟨i, u, hu, hnu⟩ := (store_mem_entries s n).mp hn
    have e := (h.shard i u hu).2 n hnu
    rw [h1] at e
    rw [e, hu] at ht
    cases ht
    exact ⟨n, hnu, h1, h2⟩

theorem store_get_isSome_iff (hash : K → Nat) (s : ShardedHashMap K V)
    (h : StoreInv hash s) (k : K) :
    (s.get hash k).isSome = true ↔ k ∈ s.entries.map (fun m => m.key) := by
  rw [Option.isSome_iff_exists, List.mem_map]
  constructor
  · rintro ⟨v, hv⟩
    obtain ⟨n, hn, h1, _⟩ := (store_get_eq_some_iff hash s h k v).mp hv
    exact ⟨n, hn, h1⟩
  · rintro ⟨n, hn, h1⟩
    exact ⟨n.value, (store_get_eq_some_iff hash s h k n.value).mpr ⟨n, hn, h1, rfl⟩⟩

theorem foldl_add_size (l : List (HashTable K V)) (init : Nat) :
    l.foldl (fun total table => total + table.size) init
      = init + (l.map HashTable.size).sum := by
  induction l generalizing init with
  | nil => simp
  | cons x xs ih => simp [ih, Nat.add_assoc]

theorem store_size_eq_sum (s : ShardedHashMap K V) :
    s.size = (s.shards_.map HashTable.size).sum := by
  simp [ShardedHashMap.size, foldl_add_size]

theorem store_entries_length (hash : K → Nat) (s : ShardedHashMap K V)
    (h : StoreInv hash s) : s.entries.length = s.size := by
  rw [store_size_eq_sum]
  unfold ShardedHashMap.entries
  rw [List.length_flatten, List.map_map]
  congr 1
  apply List.map_congr_left
  intro t ht
  obtain ⟨i, hi⟩ := List.mem_iff_getElem?.mp ht
  have hs := (h.shard i t hi).1.size_eq
  simp only [Function.comp, HashTable.entries, HashTable.size, List.length_flatten]
  exact hs.symm

end StoreLemmas

/-! ## The protocol -/

section ServerLemmas

theorem bytes_GET : bytes "GET " = [71, 69, 84, 32] := by decide
theorem bytes_SET : bytes "SET " = [83, 69, 84, 32] := by decide
theorem bytes_DEL : bytes "DEL " = [68, 69, 76, 32] := by decide

theorem startsWith_iff (req p : List Byte) : startsWith req p = true ↔ p <+: req := by
  unfold startsWith
  rw [List.prefix_iff_eq_take, beq_iff_eq]
  exact eq_comm

theorem startsWith_append (p r : List Byte) : startsWith (p ++ r) p = true := by
  rw [startsWith_iff]
  exact List.prefix_append p r

theorem findByte_eq_none_iff (c : Byte) (l : List Byte) : findByte c l = none ↔ c ∉ l := by
  induction l with
  | nil => simp [findByte]
  | cons b rest ih =>
    by_cases h : b = c
    · simp [findByte, h]
    · have h2 : ¬ c = b := fun e => h e.symm
      simp [findByte, h, h2, ih]

theorem findByte_append (c : Byte) (k v : List Byte) (hk : c ∉ k) :
    findByte c (k ++ c :: v) = some k.length := by
  induction k with
  | nil => simp [findByte]
  | cons b rest ih =>
    have hb : ¬ b = c := fun e => hk (by simp [e])
    have hr : c ∉ rest := fun e => hk (List.mem_cons_of_mem _ e)
    simp [findByte, hb, ih hr]

theorem trimLineEnd_clean (u w : List Byte) (hw : w ≠ [])
    (hc : ∀ b ∈ w, b ≠ CR ∧ b ≠ LF) : trimLineEnd (u ++ w) = u ++ w := by
  obtain ⟨w2, x, rfl⟩ : ∃ w2 x, w = w2 ++ [x] :=
    ⟨w.dropLast, w.getLast hw, (List.dropLast_append_getLast hw).symm⟩
  have hx := hc x (by simp)
  unfold trimLineEnd
  rw [← List.append_assoc, List.rdropWhile_concat]
  simp [hx.1, hx.2]

theorem trimLineEnd_line (u w : List Byte) (hw : w ≠ [])
    (hc : ∀ b ∈ w, b ≠ CR ∧ b ≠ LF) : trimLineEnd (u ++ w ++ [LF]) = u ++ w := by
  have h := trimLineEnd_clean u w hw hc
  unfold trimLineEnd at h ⊢
  rw [List.rdropWhile_concat]
  simpa using h

theorem serveReads_length (hash : List Byte → Nat) (store : Store) (rs : List (List Byte)) :
    (serveReads hash store rs).2.length = rs.length := by
  induction rs generalizing store with
  | nil => rfl
  | cons b rest ih => simp [serveReads, ih]

theorem table_erase_fst {K V : Type} [DecidableEq K] (hash : K → Nat) (t : HashTable K V)
    (k : K) : (t.erase hash k).1 = (t.get hash k).isSome := by
  cases hc : chainUnlink k (t.buckets_.getD (hash k % t.capacity_) []) with
  | none =>
    have hf := (chainUnlink_eq_none_iff k _).mp hc
    have hg : t.get hash k = none := hf
    rw [erase_absent hash t k hf, hg]
    rfl
  | some r =>
    obtain ⟨n, c⟩ := r
    have hf : t.get hash k ≠ none := by
      intro hnone
      rw [(chainUnlink_eq_none_iff k _).mpr hnone] at hc
      cases hc
    rw [erase_found hash t k n c hc]
    exact (Option.isSome_iff_ne_none.mpr hf).symm

theorem store_erase_fst {K V : Type} [DecidableEq K] (hash : K → Nat)
    (s : ShardedHashMap K V) (h : StoreInv hash s) (k : K) :
    (s.erase hash k).1 = (s.get hash k).isSome := by
  obtain ⟨t, ht⟩ := shard_exists hash s h k
  rw [store_erase_eq hash s k t ht, store_get_eq hash s k t ht]
  exact table_erase_fst hash t k

theorem drop4_append (a b c d : Byte) (r : List Byte) :
    ([a, b, c, d] ++ r).drop 4 = r := rfl

theorem take4_append (a b c d : Byte) (r : List Byte) :
    ([a, b, c, d] ++ r).take 4 = [a, b, c, d] := rfl

theorem trim_setLine (k v : List Byte) (hv : CR ∉ v ∧ LF ∉ v) :
    trimLineEnd (setLine k v) = [83, 69, 84, 32] ++ (k ++ SP :: v) := by
  unfold setLine
  rw [trimLineEnd_line (bytes "SET " ++ k) (SP :: v) (by simp), bytes_SET, List.append_assoc]
  intro b hb
  rcases List.mem_cons.mp hb with rfl | hb
  · exact ⟨by decide, by decide⟩
  · exact ⟨fun e => hv.1 (e ▸ hb), fun e => hv.2 (e ▸ hb)⟩

theorem trim_verbLine (a b c : Byte) (k : List Byte) (hk : CR ∉ k ∧ LF ∉ k) :
    trimLineEnd ([a, b, c, 32] ++ k ++ [LF]) = [a, b, c, 32] ++ k := by
  have h := trimLineEnd_line [a, b, c] (32 :: k) (by simp) (by
    intro x hx
    rcases List.mem_cons.mp hx with rfl | hx
    · exact ⟨by decide, by decide⟩
    · exact ⟨fun e => hk.1 (e ▸ hx), fun e => hk.2 (e ▸ hx)⟩)
  simpa using h

theorem handleRequest_set (hash : List Byte → Nat) (store : Store) (k v : List Byte)
    (hk : k.length ≤ config.MAX_KEY_SIZE) (hsp : SP ∉ k)
    (hv : v.length ≤ config.MAX_VALUE_SIZE) (hvc : CR ∉ v ∧ LF ∉ v) :
    handleRequest hash store (setLine k v) = (store.put hash k v, bytes "STORED\n") := by
  have hfind : findFrom SP 4 ([83, 69, 84, 32] ++ (k ++ SP :: v)) = some (4 + k.length) := by
    simp only [findFrom, drop4_append, findByte_append SP k v hsp, Option.map_some']
  have hkey : List.take (4 + k.length - 4) (k ++ SP :: v) = k := by
    rw [Nat.add_sub_cancel_left, List.take_left']
    rfl
  have hval : List.drop (4 + k.length + 1) ([83, 69, 84, 32] ++ (k ++ SP :: v)) = v := by
    have e : 4 + k.length + 1 = ([83, 69, 84, 32] ++ (k ++ [SP])).length := by
      simp
      omega
    have e2 : ([83, 69, 84, 32] ++ (k ++ SP :: v) : List Byte)
        = ([83, 69, 84, 32] ++ (k ++ [SP])) ++ v := by simp
    rw [e, e2, List.drop_left]
  unfold handleRequest
  simp only [trim_setLine k v hvc, bytes_GET, bytes_SET, startsWith, List.length_cons,
    List.length_nil, take4_append, drop4_append, hfind, hkey, hval]
  have hk2 : ¬ (config.MAX_KEY_SIZE < k.length ∨ config.MAX_VALUE_SIZE < v.length) := by
    omega
  simp [hk2]

theorem handleRequest_get (hash : List Byte → Nat) (store : Store) (k : List Byte)
    (hkc : CR ∉ k ∧ LF ∉ k) :
    handleRequest hash store (getLine k) =
      (store, match store.get hash k with
        | some value => value ++ bytes "\n"
        | none => bytes "NOT_FOUND\n") := by
  unfold handleRequest getLine
  rw [bytes_GET, trim_verbLine 71 69 84 k hkc]
  simp only [startsWith, List.length_cons, List.length_nil, take4_append, drop4_append]
  cases store.get hash k <;> simp

theorem handleRequest_del (hash : List Byte → Nat) (store : Store) (k : List Byte)
    (hkc : CR ∉ k ∧ LF ∉ k) :
    handleRequest hash store (delLine k) =
      ((store.erase hash k).2,
        if (store.erase hash k).1 then bytes "DELETED\n" else bytes "NOT_FOUND\n") := by
  unfold handleRequest delLine
  rw [bytes_DEL, trim_verbLine 68 69 76 k hkc]
  simp only [bytes_GET, bytes_SET, bytes_DEL, startsWith, List.length_cons, List.length_nil,
    take4_append, drop4_append]
  simp

theorem length_verbLine (a : List Byte) (k : List Byte) :
    (a ++ k ++ [LF]).length = a.length + k.length + 1 := by
  simp only [List.length_append, List.length_cons, List.length_nil]

end ServerLemmas

/-! ## The protocol: size checks and reads -/

section ServerLemmas2

theorem bytes_TOO_LARGE : bytes "ERROR_TOO_LARGE\n"
    = [69, 82, 82, 79, 82, 95, 84, 79, 79, 95, 76, 65, 82, 71, 69, 10] := by decide
theorem bytes_STORED : bytes "STORED\n" = [83, 84, 79, 82, 69, 68, 10] := by decide
theorem bytes_ERROR : bytes "ERROR\n" = [69, 82, 82, 79, 82, 10] := by decide
theorem bytes_DELETED : bytes "DELETED\n" = [68, 69, 76, 69, 84, 69, 68, 10] := by decide
theorem bytes_NOT_FOUND : bytes "NOT_FOUND\n" = [78, 79, 84, 95, 70, 79, 85, 78, 68, 10] := by
  decide

/-- The `SET` branch of one turn, for a request whose trimmed form splits at the
first space after the key. -/
theorem handleRequest_set_of_trim (hash : List Byte → Nat) (store : Store)
    (buffer k v : List Byte)
    (htrim : trimLineEnd buffer = [83, 69, 84, 32] ++ (k ++ SP :: v)) (hsp : SP ∉ k) :
    handleRequest hash store buffer =
      if config.MAX_KEY_SIZE < k.length ∨ config.MAX_VALUE_SIZE < v.length then
        (store, bytes "ERROR_TOO_LARGE\n")
      else (store.put hash k v, bytes "STORED\n") := by
  have hfind : findFrom SP 4 ([83, 69, 84, 32] ++ (k ++ SP :: v)) = some (4 + k.length) := by
    simp only [findFrom, drop4_append, findByte_append SP k v hsp, Option.map_some']
  have hkey : List.take (4 + k.length - 4) (k ++ SP :: v) = k := by
    rw [Nat.add_sub_cancel_left, List.take_left']
    rfl
  have hval : List.drop (4 + k.length + 1) ([83, 69, 84, 32] ++ (k ++ SP :: v)) = v := by
    have e : 4 + k.length + 1 = ([83, 69, 84, 32] ++ (k ++ [SP])).length := by
      simp
      omega
    have e2 : ([83, 69, 84, 32] ++ (k ++ SP :: v) : List Byte)
        = ([83, 69, 84, 32] ++ (k ++ [SP])) ++ v := by simp
    rw [e, e2, List.drop_left]
  unfold handleRequest
  simp only [htrim, bytes_GET, bytes_SET, startsWith, List.length_cons,
    List.length_nil, take4_append, drop4_append, hfind, hkey, hval]
  rfl

theorem trimLineEnd_length_le (buffer : List Byte) :
    (trimLineEnd buffer).length ≤ buffer.length :=
  (List.rdropWhile_prefix _ buffer).length_le

theorem setLine_ne_nil (k v : List Byte) : setLine k v ≠ [] :=
  List.append_ne_nil_of_right_ne_nil _ (List.cons_ne_nil _ _)

theorem setLine_length (k v : List Byte) : (setLine k v).length = k.length + v.length + 6 := by
  simp only [setLine, bytes_SET, List.length_append, List.length_cons, List.length_nil]
  omega

theorem not_mem_replicate (a b : Byte) (n : Nat) (h : a ≠ b) : a ∉ List.replicate n b :=
  fun hm => h (List.eq_of_mem_replicate hm)

end ServerLemmas2

section ServerLemmas3

theorem reply_ne_TOO_LARGE :
    bytes "ERROR\n" ≠ bytes "ERROR_TOO_LARGE\n" ∧ bytes "STORED\n" ≠ bytes "ERROR_TOO_LARGE\n" ∧
    bytes "DELETED\n" ≠ bytes "ERROR_TOO_LARGE\n" ∧
    bytes "NOT_FOUND\n" ≠ bytes "ERROR_TOO_LARGE\n" := by decide


end ServerLemmas3

/-! ## Nodes after `put` and `erase` -/

section EntryLemmas
variable {K V : Type} [DecidableEq K]

theorem chainAssign_mem (k : K) (v : V) (l c : List (HashNode K V))
    (h : chainAssign k v l = some c) (m : HashNode K V) (hm : m ∈ c) :
    (m.key = k ∧ m.value = v) ∨ m ∈ l := by
  induction l generalizing c with
  | nil => simp [chainAssign] at h
  | cons x xs ih =>
    by_cases hx : x.key = k
    · simp only [chainAssign, hx, if_true, Option.some.injEq] at h
      subst h
      rcases List.mem_cons.mp hm with rfl | hm2
      · exact Or.inl ⟨rfl, rfl⟩
      · exact Or.inr (List.mem_cons_of_mem _ hm2)
    · simp only [chainAssign, hx, if_false, Option.map_eq_some'] at h
      obtain ⟨c2, hc2, rfl⟩ := h
      rcases List.mem_cons.mp hm with rfl | hm2
      · exact Or.inr (List.mem_cons_self _ _)
      · rcases ih c2 hc2 hm2 with h1 | h1
        · exact Or.inl h1
        · exact Or.inr (List.mem_cons_of_mem _ h1)

theorem mem_entries_put_val (hash : K → Nat) (t : HashTable K V) (h : TableInv hash t)
    (k : K) (v : V) (n : HashNode K V) (hn : n ∈ (t.put hash k v).entries) :
    (n.key = k ∧ n.value = v) ∨ n ∈ t.entries := by
  have hi := idx_lt hash t h k
  cases hc : chainAssign k v (t.buckets_.getD (hash k % t.capacity_) []) with
  | some c =>
    rw [put_found hash t k v c hc] at hn
    obtain ⟨i, hni⟩ := (mem_flatten_iff_getD _ _).mp hn
    simp only at hni
    rw [getD_set_chain _ _ _ _ hi] at hni
    split at hni
    · rcases chainAssign_mem k v _ c hc n hni with h1 | h1
      · exact Or.inl h1
      · exact Or.inr ((mem_flatten_iff_getD _ _).mpr ⟨_, h1⟩)
    · exact Or.inr ((mem_flatten_iff_getD _ _).mpr ⟨i, hni⟩)
  | none =>
    have hf := (chainAssign_eq_none_iff k v _).mp hc
    rw [put_absent hash t k v hf] at hn
    have hn2 : n ∈ (t.linkNew hash k v).entries := by
      split at hn
      · exact (rehash_entries_perm hash _ (tableInv_linkNew hash t h k v hf)).mem_iff.mp hn
      · exact hn
    obtain ⟨i, hmi⟩ := (mem_flatten_iff_getD _ _).mp hn2
    simp only [HashTable.linkNew] at hmi
    rw [getD_set_chain _ _ _ _ hi] at hmi
    split at hmi
    · rcases List.mem_cons.mp hmi with rfl | hm2
      · exact Or.inl ⟨rfl, rfl⟩
      · exact Or.inr ((mem_flatten_iff_getD _ _).mpr ⟨_, hm2⟩)
    · exact Or.inr ((mem_flatten_iff_getD _ _).mpr ⟨i, hmi⟩)

theorem store_mem_entries_set (s : ShardedHashMap K V) (i : Nat) (t u : HashTable K V)
    (ht : s.shards_[i]? = some t) (n : HashNode K V)
    (hn : n ∈ ({ s with shards_ := s.shards_.set i u } : ShardedHashMap K V).entries) :
    n ∈ u.entries ∨ n ∈ s.entries := by
  obtain ⟨j, w, hw, hnw⟩ := (store_mem_entries _ n).mp hn
  simp only at hw
  have hi : i < s.shards_.length := by
    by_contra hcon
    rw [List.getElem?_eq_none (by omega)] at ht
    cases ht
  rw [getElem?_set_shard _ _ _ _ hi] at hw
  split at hw
  · cases hw
    exact Or.inl hnw
  · exact Or.inr ((store_mem_entries s n).mpr ⟨j, w, hw, hnw⟩)

theorem store_mem_entries_put_val (hash : K → Nat) (s : ShardedHashMap K V)
    (h : StoreInv hash s) (k : K) (v : V) (n : HashNode K V)
    (hn : n ∈ (s.put hash k v).entries) :
    (n.key = k ∧ n.value = v) ∨ n ∈ s.entries := by
  obtain ⟨t, ht⟩ := shard_exists hash s h k
  rw [store_put_eq hash s k v t ht] at hn
  rcases store_mem_entries_set s _ t _ ht n hn with h1 | h1
  · rcases mem_entries_put_val hash t (h.shard _ t ht).1 k v n h1 with h2 | h2
    · exact Or.inl h2
    · exact Or.inr ((store_mem_entries s n).mpr ⟨_, t, ht, h2⟩)
  · exact Or.inr h1

theorem store_mem_entries_erase (hash : K → Nat) (s : ShardedHashMap K V)
    (h : StoreInv hash s) (k : K) (n : HashNode K V)
    (hn : n ∈ (s.erase hash k).2.entries) : n ∈ s.entries := by
  obtain ⟨t, ht⟩ := shard_exists hash s h k
  rw [store_erase_eq hash s k t ht] at hn
  rcases store_mem_entries_set s _ t _ ht n hn with h1 | h1
  · exact (store_mem_entries s n).mpr
      ⟨_, t, ht, mem_entries_erase hash t (h.shard _ t ht).1 k n h1⟩
  · exact h1

end EntryLemmas

/-! ## Line terminators in the store -/

section CleanLemmas

theorem noLineEnd_sub (l r : List Byte) (hsub : ∀ b ∈ l, b ∈ r) (hr : NoLineEnd r) :
    NoLineEnd l :=
  ⟨fun h => hr.1 (hsub _ h), fun h => hr.2 (hsub _ h)⟩

theorem storeInv_handleRequest (hash : List Byte → Nat) (s : Store) (buffer : List Byte)
    (h : StoreInv hash s) : StoreInv hash (handleRequest hash s buffer).1 := by
  unfold handleRequest
  simp only
  split
  · split <;> exact h
  · split
    · split
      · exact h
      · split
        · exact h
        · exact storeInv_put hash s h _ _
    · split
      · exact storeInv_erase hash s h _
      · exact h

theorem cleanStore_handleRequest (hash : List Byte → Nat) (s : Store) (buffer : List Byte)
    (h : CleanStore hash s) (hb : NoLineEnd (trimLineEnd buffer)) :
    CleanStore hash (handleRequest hash s buffer).1 := by
  refine ⟨storeInv_handleRequest hash s buffer h.1, ?_⟩
  unfold handleRequest
  simp only
  split
  · split <;> exact h.2
  · split
    · split
      · exact h.2
      · split
        · exact h.2
        · intro n hn
          rcases store_mem_entries_put_val hash s h.1 _ _ n hn with ⟨hk, hv⟩ | hold
          · rw [hk, hv]
            constructor
            · exact noLineEnd_sub _ _
                (fun b hb2 => List.mem_of_mem_drop (List.mem_of_mem_take hb2)) hb
            · exact noLineEnd_sub _ _ (fun b hb2 => List.mem_of_mem_drop hb2) hb
          · exact h.2 n hold
    · split
      · intro n hn
        exact h.2 n (store_mem_entries_erase hash s h.1 _ n hn)
      · exact h.2

theorem cleanStore_serveReads (hash : List Byte → Nat) (s : Store)
    (buffers : List (List Byte)) (h : CleanStore hash s)
    (hb : ∀ b ∈ buffers, NoLineEnd (trimLineEnd b)) :
    CleanStore hash (serveReads hash s buffers).1 := by
  induction buffers generalizing s with
  | nil => exact h
  | cons b rest ih =>
    simp only [serveReads]
    exact ih _ (cleanStore_handleRequest hash s b h (hb b (List.mem_cons_self _ _)))
      (fun c hc => hb c (List.mem_cons_of_mem _ hc))

theorem entries_emptyStore : (emptyStore : Store).entries = [] := by
  unfold ShardedHashMap.entries emptyStore
  rw [new_shards]
  apply List.eq_nil_of_length_eq_zero
  rw [List.length_flatten, List.map_map]
  have : ∀ n : Nat, ((List.replicate n (HashTable.new : HashTable (List Byte) (List Byte))).map
      (List.length ∘ HashTable.entries)).sum = 0 := by
    intro n
    induction n with
    | zero => rfl
    | succ m ih =>
      rw [List.replicate_succ, List.map_cons, List.sum_cons, ih]
      simp [entries_new]
  exact this _

theorem cleanStore_emptyStore (hash : List Byte → Nat) : CleanStore hash emptyStore := by
  refine ⟨storeInv_new hash _ (by decide), ?_⟩
  intro n hn
  rw [entries_emptyStore] at hn
  cases hn


end CleanLemmas

/-! ## The node pool under `put` and `erase` -/

section PoolLemmas
variable {K V : Type} [DecidableEq K]

theorem allocate_allBlocks_le (p : MemoryPool) :
    p.allocate.2.allBlocks_ ≤ p.allBlocks_ + 1 := by
  unfold MemoryPool.allocate
  cases hfl : p.freeList_ with
  | nil =>
    simp only [List.isEmpty_nil, if_true]
    split <;> simp [MemoryPool.allocateBlock]
  | cons a l =>
    simp only [List.isEmpty_cons, Bool.false_eq_true, if_false, hfl]
    omega

theorem allocate_of_free (p : MemoryPool) (a : Slot) (l : List Slot)
    (h : p.freeList_ = a :: l) :
    p.allocate.1 = a ∧ p.allocate.2.allBlocks_ = p.allBlocks_ := by
  unfold MemoryPool.allocate
  simp only [h, List.isEmpty_cons, Bool.false_eq_true, if_false, and_self]

theorem put_absent_pool (hash : K → Nat) (t : HashTable K V) (k : K) (v : V)
    (hk : t.get hash k = none) :
    (t.put hash k v).nodePool_ = t.nodePool_.allocate.2 := by
  rw [put_absent hash t k v hk]
  split <;> rfl

theorem mem_entries_put_new (hash : K → Nat) (t : HashTable K V) (h : TableInv hash t)
    (k : K) (v : V) (hk : t.get hash k = none) :
    ({ addr := t.nodePool_.allocate.1, key := k, value := v } : HashNode K V)
      ∈ (t.put hash k v).entries := by
  have hi := idx_lt hash t h k
  have hlink : ({ addr := t.nodePool_.allocate.1, key := k, value := v } : HashNode K V)
      ∈ (t.linkNew hash k v).entries := by
    apply (mem_flatten_iff_getD _ _).mpr
    refine ⟨hash k % t.capacity_, ?_⟩
    simp only [HashTable.linkNew]
    rw [getD_set_chain _ _ _ _ hi, if_pos rfl]
    exact List.mem_cons_self _ _
  rw [put_absent hash t k v hk]
  split
  · exact (rehash_entries_perm hash _ (tableInv_linkNew hash t h k v hk)).mem_iff.mpr hlink
  · exact hlink

theorem node_unique (hash : K → Nat) (t : HashTable K V) (h : TableInv hash t)
    (n m : HashNode K V) (hn : n ∈ t.entries) (hm : m ∈ t.entries) (hk : n.key = m.key) :
    n = m :=
  List.inj_on_of_nodup_map (entries_keys_nodup hash t h) hn hm hk

theorem erase_present (hash : K → Nat) (t : HashTable K V) (k : K)
    (hk : t.get hash k ≠ none) :
    ∃ n, n ∈ t.entries ∧ n.key = k ∧
      (t.erase hash k).2.nodePool_ = t.nodePool_.deallocate n.addr := by
  cases hc : chainUnlink k (t.buckets_.getD (hash k % t.capacity_) []) with
  | none => exact absurd ((chainUnlink_eq_none_iff k _).mp hc) hk
  | some r =>
    obtain ⟨n, c⟩ := r
    obtain ⟨h1, hp, _⟩ := chainUnlink_some_spec k _ c n hc
    refine ⟨n, ?_, h1, ?_⟩
    · exact (mem_flatten_iff_getD _ _).mpr ⟨_, hp.mem_iff.mpr (List.mem_cons_self _ _)⟩
    · rw [erase_found hash t k n c hc]

/-- One cycle `put(k, v); erase(k)` on a table without the key `k`: the slot
taken from the pool goes back to the head of the free list. -/
theorem cycle_pool (hash : K → Nat) (t : HashTable K V) (h : TableInv hash t)
    (k : K) (v : V) (hk : t.get hash k = none) :
    ((t.put hash k v).erase hash k).2.nodePool_
      = t.nodePool_.allocate.2.deallocate t.nodePool_.allocate.1 := by
  have hput := tableInv_put hash t h k v
  have hg : (t.put hash k v).get hash k ≠ none := by
    rw [get_put_self hash t h k v]
    exact Option.some_ne_none v
  obtain ⟨n, hn, hnk, hpool⟩ := erase_present hash (t.put hash k v) k hg
  have hnew := mem_entries_put_new hash t h k v hk
  have he := node_unique hash _ hput n _ hn hnew hnk
  rw [hpool, he, put_absent_pool hash t k v hk]

theorem churn_spec (hash : K → Nat) (t : HashTable K V) (h : TableInv hash t)
    (k : K) (v : V) (hk : t.get hash k = none) (n : Nat) :
    TableInv hash (t.churn hash k v n) ∧ (t.churn hash k v n).get hash k = none ∧
    (1 ≤ n → (t.churn hash k v n).nodePool_
      = t.nodePool_.allocate.2.deallocate t.nodePool_.allocate.1) := by
  induction n with
  | zero => exact ⟨h, hk, fun h0 => absurd h0 (by omega)⟩
  | succ m ih =>
    obtain ⟨hinv, hget, hpool⟩ := ih
    refine ⟨tableInv_erase hash _ (tableInv_put hash _ hinv k v) k,
      get_erase_self hash _ (tableInv_put hash _ hinv k v) k, ?_⟩
    intro _
    show (((t.churn hash k v m).put hash k v).erase hash k).2.nodePool_ = _
    rw [cycle_pool hash _ hinv k v hget]
    cases m with
    | zero => rfl
    | succ j =>
      have hp := hpool (by omega)
      have hfree : (t.churn hash k v (j + 1)).nodePool_.freeList_
          = t.nodePool_.allocate.1 :: t.nodePool_.allocate.2.freeList_ := by
        rw [hp]
        rfl
      have ha : (t.churn hash k v (j + 1)).nodePool_.allocate
          = (t.nodePool_.allocate.1, t.nodePool_.allocate.2) := by
        unfold MemoryPool.allocate
        simp only [hfree, List.isEmpty_cons, Bool.false_eq_true, if_false]
        rw [hp]
        rfl
      rw [ha]

end PoolLemmas


/-! ## Two writers -/

section WriterLemmas

variable {K V : Type} [DecidableEq K]

theorem put_eq_locked_resize (hash : K → Nat) (t : HashTable K V) (k : K) (v : V) :
    t.put hash k v
      = HashTable.putResize hash (HashTable.putLocked hash t k v).1
          (HashTable.putLocked hash t k v).2 := by
  cases hc : chainAssign k v (t.buckets_.getD (hash k % t.capacity_) []) with
  | some c =>
    have hl : HashTable.putLocked hash t k v
        = ({ t with buckets_ := t.buckets_.set (hash k % t.capacity_) c }, false) := by
      unfold HashTable.putLocked
      simp only [hc]
    rw [put_found hash t k v c hc, hl]
    rfl
  | none =>
    have hl : HashTable.putLocked hash t k v
        = (t.linkNew hash k v, needRehash (t.size_ + 1) t.capacity_) := by
      unfold HashTable.putLocked
      simp only [hc]
      rfl
    rw [put_absent hash t k v ((chainAssign_eq_none_iff k v _).mp hc), hl]
    rfl

theorem putLocked_capacity (hash : K → Nat) (t : HashTable K V) (k : K) (v : V) :
    (HashTable.putLocked hash t k v).1.capacity_ = t.capacity_ := by
  unfold HashTable.putLocked
  simp only
  split <;> rfl

theorem twoWriters_capacity (hash : K → Nat) (t : HashTable K V) (k1 k2 : K) (v1 v2 : V)
    (h1 : (HashTable.putLocked hash t k1 v1).2 = true)
    (h2 : (HashTable.putLocked hash (HashTable.putLocked hash t k1 v1).1 k2 v2).2 = true) :
    (HashTable.twoWriters hash t k1 v1 k2 v2).capacity_ = t.capacity_ * 2 * 2 := by
  unfold HashTable.twoWriters HashTable.putResize
  simp only [h1, h2, if_true]
  show (HashTable.putLocked hash (HashTable.putLocked hash t k1 v1).1 k2 v2).1.capacity_ * 2 * 2
    = _
  rw [putLocked_capacity, putLocked_capacity]

end WriterLemmas

/-! ## Shard capacities and bucket residues -/

section ResidueLemmas
variable {K V : Type} [DecidableEq K]

theorem put_capacity (hash : K → Nat) (t : HashTable K V) (k : K) (v : V) :
    (t.put hash k v).capacity_ = t.capacity_ ∨ (t.put hash k v).capacity_ = t.capacity_ * 2 := by
  cases hc : chainAssign k v (t.buckets_.getD (hash k % t.capacity_) []) with
  | some c => exact Or.inl (put_found_fields hash t k v c hc).2
  | none =>
    have h := (put_absent_fields hash t k v ((chainAssign_eq_none_iff k v _).mp hc)).2
    rw [h]
    split
    · exact Or.inr rfl
    · exact Or.inl rfl

/-- Every shard of a reachable store has a capacity `1024 * 2 ^ j`. -/
theorem shard_capacity_of_reachable (hash : K → Nat) (s : ShardedHashMap K V)
    (h : ShardedHashMap.Reachable hash s) :
    ∀ (i : Nat) (t : HashTable K V), s.shards_[i]? = some t →
      ∃ j, t.capacity_ = 1024 * 2 ^ j := by
  induction h with
  | init n hn =>
    intro i t ht
    rw [new_shards, List.getElem?_replicate] at ht
    split at ht
    · cases ht
      exact ⟨0, rfl⟩
    · cases ht
  | put s k v hr ih =>
    intro i t ht
    have hinv := storeInv_of_reachable hash s hr
    obtain ⟨u, hu⟩ := shard_exists hash s hinv k
    have hlt : hash k % s.numShards_ < s.shards_.length := by
      rw [hinv.len]
      exact Nat.mod_lt _ hinv.pos
    rw [store_put_eq hash s k v u hu] at ht
    simp only at ht
    rw [getElem?_set_shard _ _ _ _ hlt] at ht
    split at ht
    · cases ht
      obtain ⟨j, hj⟩ := ih _ u hu
      rcases put_capacity hash u k v with h1 | h1
      · exact ⟨j, by rw [h1, hj]⟩
      · exact ⟨j + 1, by rw [h1, hj, Nat.pow_succ, Nat.mul_assoc]⟩
    · exact ih i t ht
  | erase s k hr ih =>
    intro i t ht
    have hinv := storeInv_of_reachable hash s hr
    obtain ⟨u, hu⟩ := shard_exists hash s hinv k
    have hlt : hash k % s.numShards_ < s.shards_.length := by
      rw [hinv.len]
      exact Nat.mod_lt _ hinv.pos
    rw [store_erase_eq hash s k u hu] at ht
    simp only at ht
    rw [getElem?_set_shard _ _ _ _ hlt] at ht
    split at ht
    · cases ht
      obtain ⟨j, hj⟩ := ih _ u hu
      exact ⟨j, by rw [(erase_fields hash u k).2, hj]⟩
    · exact ih i t ht

/-- The number of indices below `16 * m` in one residue class modulo 16 that
satisfy a predicate is at most `m`. -/
theorem countP_residue_le (p : Nat → Bool) (r m : Nat)
    (hp : ∀ b, p b = true → b % 16 = r) :
    (List.range (16 * m)).countP p ≤ m := by
  induction m with
  | zero => simp
  | succ k ih =>
    have hsplit : List.range (16 * (k + 1))
        = List.range (16 * k) ++ (List.range 16).map (fun x => 16 * k + x) := by
      rw [show 16 * (k + 1) = 16 * k + 16 by omega, List.range_add]
    rw [hsplit, List.countP_append]
    have hlast : ((List.range 16).map (fun x => 16 * k + x)).countP p ≤ 1 := by
      rw [List.countP_map]
      have hr : ∀ x, (p ∘ fun x => 16 * k + x) x = true → x % 16 = r % 16 := by
        intro x hx
        have := hp (16 * k + x) hx
        omega
      by_cases hx : ∃ x, x < 16 ∧ (p ∘ fun x => 16 * k + x) x = true
      · obtain ⟨x0, hx0, hpx0⟩ := hx
        have hle : (List.range 16).countP (p ∘ fun x => 16 * k + x)
            ≤ (List.range 16).countP (fun x => decide (x = x0)) := by
          apply List.countP_mono_left
          intro x hxm hpx
          have h1 := hr x hpx
          have h2 := hr x0 hpx0
          have h3 := List.mem_range.mp hxm
          simp only [decide_eq_true_eq]
          omega
        have hone : (List.range 16).countP (fun x => decide (x = x0)) ≤ 1 := by
          have hnd : (List.range 16).Nodup := List.nodup_range 16
          have := List.nodup_iff_count_le_one.mp hnd x0
          rw [List.count_eq_countP] at this
          have he : (fun x => decide (x = x0)) = (fun x => x == x0) := by
            funext x
            rfl
          rw [he]
          exact this
        omega
      · have hz : (List.range 16).countP (p ∘ fun x => 16 * k + x) = 0 := by
          rw [List.countP_eq_zero]
          intro x hxm hpx
          exact hx ⟨x, List.mem_range.mp hxm, hpx⟩
        omega
    omega


theorem getElem?_getD_of_lt {α : Type} (l : List α) (i : Nat) (d : α) (h : i < l.length) :
    l[i]? = some (l.getD i d) := by
  rw [List.getD_eq_getElem?_getD, List.getElem?_eq_getElem h]
  rfl

end ResidueLemmas

/-! ## Lookups of other keys -/

section FrameLemmas

variable {K V : Type} [DecidableEq K]

theorem chainFind_assign_other (k k2 : K) (v : V) (l c : List (HashNode K V))
    (h : chainAssign k v l = some c) (hne : k2 ≠ k) : chainFind k2 c = chainFind k2 l := by
  induction l generalizing c with
  | nil => simp [chainAssign] at h
  | cons x xs ih =>
    by_cases hx : x.key = k
    · simp only [chainAssign, hx, if_true, Option.some.injEq] at h
      subst h
      have hx2 : ¬ x.key = k2 := fun e => hne (e.symm.trans hx)
      have hk : ¬ k = k2 := fun e => hne e.symm
      simp only [chainFind, hx, hx2, hk, if_false]
    · simp only [chainAssign, hx, if_false, Option.map_eq_some'] at h
      obtain ⟨c2, hc2, rfl⟩ := h
      simp only [chainFind]
      rw [ih c2 hc2]

theorem chainFind_unlink_other (k k2 : K) (l c : List (HashNode K V)) (n : HashNode K V)
    (h : chainUnlink k l = some (n, c)) (hne : k2 ≠ k) : chainFind k2 c = chainFind k2 l := by
  induction l generalizing c with
  | nil => simp [chainUnlink] at h
  | cons x xs ih =>
    by_cases hx : x.key = k
    · simp only [chainUnlink, hx, if_true, Option.some.injEq, Prod.mk.injEq] at h
      obtain ⟨rfl, rfl⟩ := h
      have hx2 : ¬ x.key = k2 := fun e => hne (e.symm.trans hx)
      simp only [chainFind, hx2, if_false]
    · simp only [chainUnlink, hx, if_false, Option.map_eq_some', Prod.mk.injEq] at h
      obtain ⟨r, hr, rfl, rfl⟩ := h
      simp only [chainFind]
      rw [ih r.2 hr]

/-- Linking a new node for `k` leaves the lookup of every other key as it was. -/
theorem get_linkNew_other (hash : K → Nat) (t : HashTable K V) (h : TableInv hash t)
    (k k2 : K) (v : V) (hne : k2 ≠ k) :
    (t.linkNew hash k v).get hash k2 = t.get hash k2 := by
  have hi := idx_lt hash t h k
  simp only [HashTable.linkNew, HashTable.get]
  rw [getD_set_chain _ _ _ _ hi]
  split
  · rename_i hij
    have hk : ¬ k = k2 := fun e => hne e.symm
    simp only [chainFind, hk, if_false, hij]
  · rfl

/-- The method `put(k, v)` leaves the lookup of every other key as it was, on the
overwrite path, the insert path and the insert-then-rehash path. -/
theorem get_put_other (hash : K → Nat) (t : HashTable K V) (h : TableInv hash t)
    (k k2 : K) (v : V) (hne : k2 ≠ k) :
    (t.put hash k v).get hash k2 = t.get hash k2 := by
  have hi := idx_lt hash t h k
  cases hc : chainAssign k v (t.buckets_.getD (hash k % t.capacity_) []) with
  | some c =>
    rw [put_found hash t k v c hc]
    simp only [HashTable.get]
    rw [getD_set_chain _ _ _ _ hi]
    split
    · rename_i hij
      rw [chainFind_assign_other k k2 v _ c hc hne, hij]
    · rfl
  | none =>
    have hf := (chainAssign_eq_none_iff k v _).mp hc
    rw [put_absent hash t k v hf]
    split
    · rw [get_rehash hash _ (tableInv_linkNew hash t h k v hf)]
      exact get_linkNew_other hash t h k k2 v hne
    · exact get_linkNew_other hash t h k k2 v hne

/-- The method `erase(k)` leaves the lookup of every other key as it was. -/
theorem get_erase_other (hash : K → Nat) (t : HashTable K V) (h : TableInv hash t)
    (k k2 : K) (hne : k2 ≠ k) :
    (t.erase hash k).2.get hash k2 = t.get hash k2 := by
  have hi := idx_lt hash t h k
  cases hc : chainUnlink k (t.buckets_.getD (hash k % t.capacity_) []) with
  | none =>
    rw [erase_absent hash t k ((chainUnlink_eq_none_iff k _).mp hc)]
  | some r =>
    obtain ⟨n, c⟩ := r
    rw [erase_found hash t k n c hc]
    simp only [HashTable.get]
    rw [getD_set_chain _ _ _ _ hi]
    split
    · rename_i hij
      rw [chainFind_unlink_other k k2 _ c n hc hne, hij]
    · rfl

/-- Replacing the shard of `k` by a table that answers `k2` as before leaves the
lookup of `k2` in the store as it was. -/
theorem store_get_set (hash : K → Nat) (s : ShardedHashMap K V) (h : StoreInv hash s)
    (k k2 : K) (t u : HashTable K V) (ht : s.shards_[hash k % s.numShards_]? = some t)
    (hu : u.get hash k2 = t.get hash k2) :
    ShardedHashMap.get hash
      { s with shards_ := s.shards_.set (hash k % s.numShards_) u } k2 = s.get hash k2 := by
  have hlt : hash k % s.numShards_ < s.shards_.length := by
    rw [h.len]
    exact Nat.mod_lt _ h.pos
  by_cases hij : hash k % s.numShards_ = hash k2 % s.numShards_
  · rw [store_get_eq hash _ k2 u (by
      simp only
      rw [getElem?_set_shard _ _ _ _ hlt, if_pos hij])]
    rw [store_get_eq hash s k2 t (hij ▸ ht)]
    exact hu
  · obtain ⟨t2, ht2⟩ := shard_exists hash s h k2
    rw [store_get_eq hash _ k2 t2 (by
      simp only
      rw [getElem?_set_shard _ _ _ _ hlt, if_neg hij]
      exact ht2)]
    rw [store_get_eq hash s k2 t2 ht2]

theorem store_get_put_other (hash : K → Nat) (s : ShardedHashMap K V) (h : StoreInv hash s)
    (k k2 : K) (v : V) (hne : k2 ≠ k) :
    (s.put hash k v).get hash k2 = s.get hash k2 := by
  obtain ⟨t, ht⟩ := shard_exists hash s h k
  rw [store_put_eq hash s k v t ht]
  exact store_get_set hash s h k k2 t _ ht (get_put_other hash t (h.shard _ t ht).1 k k2 v hne)

theorem store_get_erase_other (hash : K → Nat) (s : ShardedHashMap K V) (h : StoreInv hash s)
    (k k2 : K) (hne : k2 ≠ k) :
    (s.erase hash k).2.get hash k2 = s.get hash k2 := by
  obtain ⟨t, ht⟩ := shard_exists hash s h k
  rw [store_erase_eq hash s k t ht]
  exact store_get_set hash s h k k2 t _ ht (get_erase_other hash t (h.shard _ t ht).1 k k2 hne)

end FrameLemmas

/-! ## The protocol: requests within one read -/

section ServerLemmas4

theorem findFrom_set (k v : List Byte) (hsp : SP ∉ k) :
    findFrom SP 4 ([83, 69, 84, 32] ++ (k ++ SP :: v)) = some (4 + k.length) := by
  simp only [findFrom, drop4_append, findByte_append SP k v hsp, Option.map_some']

end ServerLemmas4

/-! ## One connection served through epoll -/

section ConnectionLemmas

theorem mask_has_EPOLLIN : (EPOLLIN ||| EPOLLET) &&& EPOLLIN ≠ 0 := by decide

theorem mask_lacks_EPOLLOUT : (EPOLLIN ||| EPOLLET) &&& EPOLLOUT = 0 := by decide

theorem start_fields (store : Store) (fd : Int) (h : Nat) :
    (Connection.start store fd h).task = ConnState.awaitRead ∧
    (Connection.start store fd h).store = store ∧
    (Connection.start store fd h).pending = [] ∧
    (Connection.start store fd h).written = [] ∧
    (Connection.start store fd h).reactor.interest fd = some (EPOLLIN ||| EPOLLET) ∧
    (Connection.start store fd h).reactor.handlers fd
      = some { handle := h, events := EPOLLIN } := by
  simp [Connection.start, Connection.suspend, Reactor.add_reader, epoll_ctl_add,
    EventLoop.add_reader, EventLoop.assign]

/-- An arrival while the task awaits a read: the task reads, handles the request
and is left suspended in the write of the reply; `add_writer` fails to add the
descriptor a second time, so its mask stays `EPOLLIN | EPOLLET`. -/
theorem receive_awaitRead (hash : List Byte → Nat) (c : Connection) (fd : Int) (h e : Nat)
    (data : List Byte) (ht : c.task = ConnState.awaitRead)
    (hi : c.reactor.interest fd = some (EPOLLIN ||| EPOLLET))
    (hh : c.reactor.handlers fd = some { handle := h + 1, events := e })
    (hne : c.pending ++ data ≠ []) :
    (Connection.receive hash c fd data).task
      = ConnState.awaitWrite
          (handleRequest hash c.store ((c.pending ++ data).take BUFFER_SIZE)).2 ∧
    (Connection.receive hash c fd data).store
      = (handleRequest hash c.store ((c.pending ++ data).take BUFFER_SIZE)).1 ∧
    (Connection.receive hash c fd data).pending = (c.pending ++ data).drop BUFFER_SIZE ∧
    (Connection.receive hash c fd data).written = c.written ∧
    (Connection.receive hash c fd data).reactor.interest fd = some (EPOLLIN ||| EPOLLET) ∧
    (Connection.receive hash c fd data).reactor.handlers fd
      = some { handle := h + 1, events := EPOLLOUT } := by
  have hlen : ¬ (((List.take BUFFER_SIZE (c.pending ++ data)).length : Int) ≤ 0) := by
    have h1 : 0 < (c.pending ++ data).length := List.length_pos.mpr hne
    have h2 : 0 < BUFFER_SIZE := by decide
    rw [List.length_take]
    omega
  simp only [Connection.receive, Connection.dispatch, hi, mask_has_EPOLLIN, ne_eq,
    not_false_eq_true, if_true, EventLoop.handleEvent, hh, Nat.succ_ne_zero, Connection.resume, ht, connStep, hlen,
    if_false, Int.toNat_ofNat, List.take_length, Connection.suspend, Reactor.add_writer,
    epoll_ctl_add, EventLoop.add_writer, EventLoop.assign, and_self]

/-- An arrival while the task awaits the write of `resp`: the task writes the
reply and is left suspended in the next read, without reading what arrived. -/
theorem receive_awaitWrite (hash : List Byte → Nat) (c : Connection) (fd : Int) (h e : Nat)
    (data resp : List Byte) (ht : c.task = ConnState.awaitWrite resp)
    (hi : c.reactor.interest fd = some (EPOLLIN ||| EPOLLET))
    (hh : c.reactor.handlers fd = some { handle := h + 1, events := e }) :
    (Connection.receive hash c fd data).task = ConnState.awaitRead ∧
    (Connection.receive hash c fd data).store = c.store ∧
    (Connection.receive hash c fd data).pending = c.pending ++ data ∧
    (Connection.receive hash c fd data).written = c.written ++ [resp] ∧
    (Connection.receive hash c fd data).reactor.interest fd = some (EPOLLIN ||| EPOLLET) ∧
    (Connection.receive hash c fd data).reactor.handlers fd
      = some { handle := h + 1, events := EPOLLIN } := by
  simp only [Connection.receive, Connection.dispatch, hi, mask_has_EPOLLIN, ne_eq,
    not_false_eq_true, if_true, EventLoop.handleEvent, hh, Nat.succ_ne_zero, Connection.resume, ht, connStep,
    Connection.suspend, Reactor.add_reader,
    epoll_ctl_add, EventLoop.add_reader, EventLoop.assign, and_self]


/-- The descriptor is added to the interest list once, with `EPOLLIN | EPOLLET`,
and leaves it when the task closes it: no later call changes its mask. -/
theorem suspend_interest (c : Connection) (fd : Int) (h : Nat)
    (hi : c.reactor.interest fd = some (EPOLLIN ||| EPOLLET) ∨ c.reactor.interest fd = none)
    (ht : c.reactor.interest fd = none → c.task = ConnState.closed) :
    ((c.suspend fd h).reactor.interest fd = some (EPOLLIN ||| EPOLLET) ∨
      (c.suspend fd h).reactor.interest fd = none) ∧
    ((c.suspend fd h).reactor.interest fd = none → (c.suspend fd h).task = ConnState.closed) := by
  unfold Connection.suspend
  cases hc : c.task with
  | awaitRead =>
    rcases hi with hi | hi
    · simp [Reactor.add_reader, epoll_ctl_add, hi]
    · rw [ht hi] at hc
      cases hc
  | awaitWrite resp =>
    rcases hi with hi | hi
    · simp [Reactor.add_writer, epoll_ctl_add, hi]
    · rw [ht hi] at hc
      cases hc
  | closed => simp [Reactor.close, hc]

theorem resume_interest (hash : List Byte → Nat) (c : Connection) (fd : Int) (h : Nat)
    (hi : c.reactor.interest fd = some (EPOLLIN ||| EPOLLET) ∨ c.reactor.interest fd = none)
    (ht : c.reactor.interest fd = none → c.task = ConnState.closed) :
    ((c.resume hash fd h).reactor.interest fd = some (EPOLLIN ||| EPOLLET) ∨
      (c.resume hash fd h).reactor.interest fd = none) ∧
    ((c.resume hash fd h).reactor.interest fd = none →
      (c.resume hash fd h).task = ConnState.closed) := by
  unfold Connection.resume
  split
  · rename_i hc
    apply suspend_interest
    · exact hi
    · intro hn
      have := ht hn
      rw [hc] at this
      cases this
  · rename_i resp hc
    apply suspend_interest
    · exact hi
    · intro hn
      have := ht hn
      rw [hc] at this
      cases this
  · exact ⟨hi, ht⟩

theorem dispatch_interest (hash : List Byte → Nat) (c : Connection) (fd : Int)
    (hi : c.reactor.interest fd = some (EPOLLIN ||| EPOLLET) ∨ c.reactor.interest fd = none)
    (ht : c.reactor.interest fd = none → c.task = ConnState.closed) :
    ((c.dispatch hash fd).reactor.interest fd = some (EPOLLIN ||| EPOLLET) ∨
      (c.dispatch hash fd).reactor.interest fd = none) ∧
    ((c.dispatch hash fd).reactor.interest fd = none →
      (c.dispatch hash fd).task = ConnState.closed) := by
  unfold Connection.dispatch
  simp only
  split
  · exact resume_interest hash _ fd _ hi ht
  · exact ⟨hi, ht⟩

theorem receive_interest (hash : List Byte → Nat) (c : Connection) (fd : Int)
    (data : List Byte)
    (hi : c.reactor.interest fd = some (EPOLLIN ||| EPOLLET) ∨ c.reactor.interest fd = none)
    (ht : c.reactor.interest fd = none → c.task = ConnState.closed) :
    ((c.receive hash fd data).reactor.interest fd = some (EPOLLIN ||| EPOLLET) ∨
      (c.receive hash fd data).reactor.interest fd = none) ∧
    ((c.receive hash fd data).reactor.interest fd = none →
      (c.receive hash fd data).task = ConnState.closed) := by
  unfold Connection.receive
  simp only
  split
  · split
    · exact dispatch_interest hash _ fd hi ht
    · exact ⟨hi, ht⟩
  · exact ⟨hi, ht⟩

theorem session_interest (hash : List Byte → Nat) (store : Store) (fd : Int) (h : Nat)
    (sends : List (List Byte)) :
    ((Connection.session hash store fd h sends).reactor.interest fd
        = some (EPOLLIN ||| EPOLLET) ∨
      (Connection.session hash store fd h sends).reactor.interest fd = none) ∧
    ((Connection.session hash store fd h sends).reactor.interest fd = none →
      (Connection.session hash store fd h sends).task = ConnState.closed) := by
  unfold Connection.session
  induction sends using List.reverseRecOn with
  | nil =>
    have hs := start_fields store fd h
    simp only [List.foldl_nil]
    exact ⟨Or.inl hs.2.2.2.2.1, fun hn => by rw [hs.2.2.2.2.1] at hn; cases hn⟩
  | append_singleton l d ih =>
    rw [List.foldl_append]
    simp only [List.foldl_cons, List.foldl_nil]
    exact receive_interest hash _ fd d ih.1 ih.2

/-- A writable socket never resumes the task: in every state of every session
the mask of the descriptor lacks `EPOLLOUT`. -/
theorem writable_session (hash : List Byte → Nat) (store : Store) (fd : Int) (h : Nat)
    (sends : List (List Byte)) :
    Connection.writable hash (Connection.session hash store fd h sends) fd
      = Connection.session hash store fd h sends := by
  unfold Connection.writable
  rcases (session_interest hash store fd h sends).1 with hi | hi
  · simp only [hi, mask_lacks_EPOLLOUT, ne_eq, not_true_eq_false, if_false]
  · simp only [hi]

theorem handleRequest_get_of_trim (hash : List Byte → Nat) (store : Store)
    (buffer k : List Byte) (htrim : trimLineEnd buffer = [71, 69, 84, 32] ++ k) :
    handleRequest hash store buffer =
      (store, match store.get hash k with
        | some value => value ++ bytes "\n"
        | none => bytes "NOT_FOUND\n") := by
  unfold handleRequest
  rw [htrim, bytes_GET]
  simp only [startsWith, List.length_cons, List.length_nil, take4_append, drop4_append]
  cases store.get hash k <;> simp

theorem store_get_emptyStore (hash : List Byte → Nat) (k : List Byte) :
    (emptyStore : Store).get hash k = none := by
  cases hg : (emptyStore : Store).get hash k with
  | none => rfl
  | some v =>
    obtain ⟨n, hn, _⟩ := (store_get_eq_some_iff hash emptyStore
      (storeInv_new hash _ (by decide)) k v).mp hg
    rw [entries_emptyStore] at hn
    cases hn

end ConnectionLemmas

/-! # The claims -/

section Claims

variable {K V : Type} [DecidableEq K]

/-- C1: in every store state reachable by sequential `put`/`erase` calls from a
newly constructed `ShardedHashMap` with at least one shard, `put(k, v)` followed
by `get(k)` returns exactly `v`, whether or not the `put` resizes the shard. -/
theorem C1_put_then_get (hash : K → Nat) (s : ShardedHashMap K V)
    (h : ShardedHashMap.Reachable hash s) (k : K) (v : V) :
    (s.put hash k v).get hash k = some v :=
  store_get_put_self hash s (storeInv_of_reachable hash s h) k v

theorem C1_put_then_get_witness :
    ShardedHashMap.Reachable (fun n : Nat => n) demoStore ∧
      (demoStore.put (fun n => n) 21 7).get (fun n => n) 21 = some 7 :=
  ⟨ShardedHashMap.Reachable.put _ _ _ (ShardedHashMap.Reachable.init 16 (by decide)),
   C1_put_then_get _ demoStore
    (ShardedHashMap.Reachable.put _ _ _ (ShardedHashMap.Reachable.init 16 (by decide))) 21 7⟩

/-- C2: in every reachable store state, `put(k, v)`, then `erase(k)`, then
`get(k)` ends with `get` reporting absent. -/
theorem C2_put_erase_get (hash : K → Nat) (s : ShardedHashMap K V)
    (h : ShardedHashMap.Reachable hash s) (k : K) (v : V) :
    ((s.put hash k v).erase hash k).2.get hash k = none :=
  store_get_erase_self hash _
    (storeInv_put hash s (storeInv_of_reachable hash s h) k v) k

theorem C2_put_erase_get_witness :
    ShardedHashMap.Reachable (fun n : Nat => n) demoStore ∧
      ((demoStore.put (fun n => n) 21 7).erase (fun n => n) 21).2.get (fun n => n) 21 = none :=
  ⟨ShardedHashMap.Reachable.put _ _ _ (ShardedHashMap.Reachable.init 16 (by decide)),
   C2_put_erase_get _ demoStore
    (ShardedHashMap.Reachable.put _ _ _ (ShardedHashMap.Reachable.init 16 (by decide))) 21 7⟩

/-- C3: in every reachable table state in which key `k` is present, `put(k, v2)`
replaces the stored value by `v2` and leaves `size()`, the capacity and the
length of every chain unchanged; the pool is untouched (no node is allocated)
and the bucket vector keeps its length (no resize). -/
theorem C3_put_existing (hash : K → Nat) (t : HashTable K V)
    (h : HashTable.Reachable hash t) (k : K) (v2 : V)
    (hk : (t.get hash k).isSome = true) :
    (t.put hash k v2).get hash k = some v2 ∧
    (t.put hash k v2).size = t.size ∧
    (t.put hash k v2).capacity_ = t.capacity_ ∧
    (t.put hash k v2).buckets_.map List.length = t.buckets_.map List.length ∧
    (t.put hash k v2).nodePool_ = t.nodePool_ := by
  have hinv := tableInv_of_reachable hash t h
  refine ⟨get_put_self hash t hinv k v2, ?_⟩
  cases hc : chainAssign k v2 (t.buckets_.getD (hash k % t.capacity_) []) with
  | none =>
    have hf := (chainAssign_eq_none_iff k v2 _).mp hc
    simp only [HashTable.get] at hk
    rw [hf] at hk
    cases hk
  | some c =>
    rw [put_found hash t k v2 c hc]
    obtain ⟨_, _, hl, _⟩ := chainAssign_some_spec k v2 _ c hc
    exact ⟨rfl, rfl, map_length_set_same _ _ _ hl, rfl⟩

theorem C3_put_existing_witness :
    HashTable.Reachable (fun n : Nat => n) demoTable ∧
    (demoTable.get (fun n => n) 1).isSome = true ∧
    ((demoTable.put (fun n => n) 1 11).get (fun n => n) 1 = some 11 ∧
     (demoTable.put (fun n => n) 1 11).size = demoTable.size ∧
     (demoTable.put (fun n => n) 1 11).capacity_ = demoTable.capacity_ ∧
     (demoTable.put (fun n => n) 1 11).buckets_.map List.length
        = demoTable.buckets_.map List.length ∧
     (demoTable.put (fun n => n) 1 11).nodePool_ = demoTable.nodePool_) :=
  ⟨HashTable.Reachable.put _ _ _ (HashTable.Reachable.init 2), by decide,
   C3_put_existing _ demoTable (HashTable.Reachable.put _ _ _ (HashTable.Reachable.init 2))
    1 11 (by decide)⟩

/-- C4: in every reachable table state, `erase(k)` returns `true` exactly when
`get(k)` was present before the call; when it returns `true` the live-entry
count goes down by exactly one, and when it returns `false` the table is
unchanged. -/
theorem C4_erase_result (hash : K → Nat) (t : HashTable K V)
    (h : HashTable.Reachable hash t) (k : K) :
    ((t.erase hash k).1 = true ↔ (t.get hash k).isSome = true) ∧
    ((t.erase hash k).1 = true → (t.erase hash k).2.size + 1 = t.size) ∧
    ((t.erase hash k).1 = false → (t.erase hash k).2 = t) := by
  have hinv := tableInv_of_reachable hash t h
  have hi := idx_lt hash t hinv k
  cases hc : chainUnlink k (t.buckets_.getD (hash k % t.capacity_) []) with
  | none =>
    have hf := (chainUnlink_eq_none_iff k _).mp hc
    have hg : t.get hash k = none := hf
    rw [erase_absent hash t k hf, hg]
    simp
  | some r =>
    obtain ⟨n, c⟩ := r
    have hf : chainFind k (t.buckets_.getD (hash k % t.capacity_) []) ≠ none := by
      intro hnone
      rw [(chainUnlink_eq_none_iff k _).mpr hnone] at hc
      cases hc
    rw [erase_found hash t k n c hc]
    obtain ⟨_, hp, _⟩ := chainUnlink_some_spec k _ c n hc
    have hs := sum_length_set t.buckets_ (hash k % t.capacity_) c hi
    have hl := hp.length_eq
    simp only [List.length_cons] at hl
    have hsz := hinv.size_eq
    refine ⟨?_, ?_, ?_⟩
    · simp only [HashTable.get, true_iff]
      exact Option.isSome_iff_ne_none.mpr hf
    · intro _
      simp only [HashTable.size]
      omega
    · intro hfalse
      cases hfalse

theorem C4_erase_result_witness :
    HashTable.Reachable (fun n : Nat => n) demoTable ∧
    (((demoTable.erase (fun n => n) 1).1 = true ↔
        (demoTable.get (fun n => n) 1).isSome = true) ∧
     ((demoTable.erase (fun n => n) 1).1 = true →
        (demoTable.erase (fun n => n) 1).2.size + 1 = demoTable.size) ∧
     ((demoTable.erase (fun n => n) 1).1 = false →
        (demoTable.erase (fun n => n) 1).2 = demoTable)) :=
  ⟨HashTable.Reachable.put _ _ _ (HashTable.Reachable.init 2),
   C4_erase_result _ demoTable (HashTable.Reachable.put _ _ _ (HashTable.Reachable.init 2)) 1⟩

/-- C5: in every store state reachable by sequential `put`/`erase` calls from a
newly constructed store, each key occurs in at most one node over all chains of
all shards (so in at most one shard, and there in at most one node); the shards
that hold a node with a given key have the same index. -/
theorem C5_key_unique (hash : K → Nat) (s : ShardedHashMap K V)
    (h : ShardedHashMap.Reachable hash s) (k : K) :
    s.entries.countP (fun n => decide (n.key = k)) ≤ 1 ∧
    ∀ (i j : Nat) (ti tj : HashTable K V),
      s.shards_[i]? = some ti → s.shards_[j]? = some tj →
      (∃ n ∈ ti.entries, n.key = k) → (∃ n ∈ tj.entries, n.key = k) → i = j := by
  have hinv := storeInv_of_reachable hash s h
  constructor
  · have hn := List.nodup_iff_count_le_one.mp (store_keys_nodup hash s hinv) k
    rw [List.count_eq_countP, List.countP_map] at hn
    have he : ((fun x => x == k) ∘ fun m : HashNode K V => m.key)
        = fun n => decide (n.key = k) := by
      funext n
      rfl
    rw [he] at hn
    exact hn
  · rintro i j ti tj hi hj ⟨n1, hn1, hk1⟩ ⟨n2, hn2, hk2⟩
    have e1 := (hinv.shard i ti hi).2 n1 hn1
    have e2 := (hinv.shard j tj hj).2 n2 hn2
    rw [hk1] at e1
    rw [hk2] at e2
    omega

theorem C5_key_unique_witness :
    ShardedHashMap.Reachable (fun n : Nat => n) demoStore ∧
    (demoStore.entries.countP (fun n => decide (n.key = 5)) ≤ 1 ∧
     ∀ (i j : Nat) (ti tj : HashTable Nat Nat),
      demoStore.shards_[i]? = some ti → demoStore.shards_[j]? = some tj →
      (∃ n ∈ ti.entries, n.key = 5) → (∃ n ∈ tj.entries, n.key = 5) → i = j) :=
  ⟨ShardedHashMap.Reachable.put _ _ _ (ShardedHashMap.Reachable.init 16 (by decide)),
   C5_key_unique _ demoStore
    (ShardedHashMap.Reachable.put _ _ _ (ShardedHashMap.Reachable.init 16 (by decide))) 5⟩

/-- C6: for every table state satisfying the representation invariant, `rehash()`
yields a bucket array whose nodes are a permutation of the nodes before the call
(no entry lost, none duplicated), with the live-entry count unchanged and the
capacity doubled, every node lying in bucket `hash(key) mod newCapacity`, so
that `get(k)` returns the same result for every key before and after. -/
theorem C6_rehash_preserves (hash : K → Nat) (t : HashTable K V) (h : TableInv hash t) :
    (t.rehash hash).entries.Perm t.entries ∧
    (t.rehash hash).size = t.size ∧
    (t.rehash hash).capacity_ = t.capacity_ * 2 ∧
    (t.rehash hash).buckets_.length = t.capacity_ * 2 ∧
    (∀ j n, n ∈ (t.rehash hash).buckets_.getD j [] →
      j = hash n.key % (t.capacity_ * 2)) ∧
    ∀ k, (t.rehash hash).get hash k = t.get hash k := by
  have hr := tableInv_rehash hash t h
  refine ⟨rehash_entries_perm hash t h, rfl, rfl, hr.len, ?_, get_rehash hash t h⟩
  intro j n hn
  exact (hr.home j n hn).symm

theorem C6_rehash_preserves_witness :
    TableInv (fun n : Nat => n) demoTableFull ∧
    ((demoTableFull.rehash (fun n => n)).entries.Perm demoTableFull.entries ∧
     (demoTableFull.rehash (fun n => n)).size = demoTableFull.size ∧
     (demoTableFull.rehash (fun n => n)).capacity_ = demoTableFull.capacity_ * 2 ∧
     (demoTableFull.rehash (fun n => n)).buckets_.length = demoTableFull.capacity_ * 2 ∧
     (∀ j n, n ∈ (demoTableFull.rehash (fun n => n)).buckets_.getD j [] →
        j = (fun n => n) n.key % (demoTableFull.capacity_ * 2)) ∧
     ∀ k, (demoTableFull.rehash (fun n => n)).get (fun n => n) k
        = demoTableFull.get (fun n => n) k) :=
  ⟨tableInv_linkNew _ _ (tableInv_put _ _ (tableInv_new _ 2) 1 10) 3 30 (by decide),
   C6_rehash_preserves _ demoTableFull
    (tableInv_linkNew _ _ (tableInv_put _ _ (tableInv_new _ 2) 1 10) 3 30 (by decide))⟩

/-- C7, as amended: in sequential use, for a table whose capacity `c` is
`m * 2 ^ i` with `3 * m < 2 ^ 24` (every capacity `1024 * 2 ^ j` of a shard of
the store, every capacity below 5592406), a `put` that inserts a new key while
the live count `n` satisfies `n + 1 ≤ 2 ^ 24` doubles the capacity exactly once
(new capacity `2 * c`) when `4 * (n + 1) > 3 * c` and leaves it at `c`
otherwise; consequently every reachable state of such a table with at most
`2 ^ 24` live entries has live count at most 0.75 times the capacity. -/
theorem C7_resize_rule (hash : K → Nat) (t : HashTable K V)
    (h : HashTable.Reachable hash t) (m i : Nat)
    (hc : t.capacity_ = m * 2 ^ i) (hm : 3 * m < 2 ^ 24) :
    (∀ (k : K) (v : V), t.get hash k = none → t.size + 1 ≤ 2 ^ 24 →
      (t.put hash k v).size = t.size + 1 ∧
      (t.put hash k v).capacity_ =
        if 3 * t.capacity_ < 4 * (t.size + 1) then 2 * t.capacity_ else t.capacity_) ∧
    (t.size ≤ 2 ^ 24 → 4 * t.size ≤ 3 * t.capacity_) := by
  constructor
  · intro k v hk hn
    obtain ⟨h1, h2⟩ := put_absent_fields hash t k v hk
    refine ⟨h1, ?_⟩
    rw [h2, hc, needRehash_exact (t.size_ + 1) m i hm hn]
    simp only [decide_eq_true_eq, HashTable.size]
    split
    · omega
    · rfl
  · intro hn
    have hl := load_le_of_reachable hash t h ⟨m, i, hc, hm⟩
    have hex : roundToF32 t.size_ = t.size_ := by
      by_cases hlt : t.size_ < 2 ^ 24
      · exact roundToF32_of_lt _ hlt
      · have e : t.size_ = 1 * 2 ^ 24 := by
          simp only [HashTable.size] at hn
          omega
        rw [e]
        exact roundToF32_exact 1 24 (by norm_num)
    rw [hex] at hl
    exact hl

theorem C7_resize_rule_witness :
    HashTable.Reachable (fun n : Nat => n) demoTable ∧
    demoTable.capacity_ = 1 * 2 ^ 1 ∧ 3 * 1 < 2 ^ 24 ∧
    ((∀ (k : Nat) (v : Nat), demoTable.get (fun n => n) k = none →
        demoTable.size + 1 ≤ 2 ^ 24 →
        (demoTable.put (fun n => n) k v).size = demoTable.size + 1 ∧
        (demoTable.put (fun n => n) k v).capacity_ =
          if 3 * demoTable.capacity_ < 4 * (demoTable.size + 1) then 2 * demoTable.capacity_
          else demoTable.capacity_) ∧
     (demoTable.size ≤ 2 ^ 24 → 4 * demoTable.size ≤ 3 * demoTable.capacity_)) :=
  ⟨HashTable.Reachable.put _ _ _ (HashTable.Reachable.init 2), by decide, by decide,
   C7_resize_rule _ demoTable (HashTable.Reachable.put _ _ _ (HashTable.Reachable.init 2)) 1 1
    (by decide) (by decide)⟩

/-- C7 as stated fails: the table obtained from `HashTable(1 << 26)` by 50331648
insertions is reachable, has capacity `c = 2 ^ 26` and live count
`n = 50331648`; inserting one more new key has `4 * (n + 1) > 3 * c`, yet the
capacity stays `c`, and afterwards the live count exceeds 0.75 times the
capacity. -/
theorem C7_counterexample :
    HashTable.Reachable (fun x => x) bigTable ∧
    bigTable.capacity_ = 2 ^ 26 ∧ bigTable.size = 50331648 ∧
    bigTable.get (fun x => x) 50331648 = none ∧
    3 * bigTable.capacity_ < 4 * (bigTable.size + 1) ∧
    (bigTable.put (fun x => x) 50331648 0).capacity_ = bigTable.capacity_ ∧
    ¬ (4 * (bigTable.put (fun x => x) 50331648 0).size
        ≤ 3 * (bigTable.put (fun x => x) 50331648 0).capacity_) := by
  rw [bigTable_eq]
  obtain ⟨hr, hcap, hsize, hkeys⟩ := filledTable_spec 50331648 (Nat.le_refl _)
  exact put_not_resized (filledTable 50331648) hr hcap hsize hkeys

/-- C8: in every store state reachable by sequential `put`/`erase` calls,
`ShardedHashMap::size()` is the sum of the shards' `size()` values, each shard's
`size()` is the number of nodes in its chains, and the store's `size()` is the
number of distinct keys `k` for which `get(k)` is present. -/
theorem C8_size_counts_keys (hash : K → Nat) (s : ShardedHashMap K V)
    (h : ShardedHashMap.Reachable hash s) :
    s.size = (s.shards_.map HashTable.size).sum ∧
    (∀ t ∈ s.shards_, t.size = (t.buckets_.map List.length).sum) ∧
    Set.ncard {k : K | (s.get hash k).isSome = true} = s.size := by
  have hinv := storeInv_of_reachable hash s h
  refine ⟨store_size_eq_sum s, ?_, ?_⟩
  · intro t ht
    obtain ⟨i, hi⟩ := List.mem_iff_getElem?.mp ht
    exact (hinv.shard i t hi).1.size_eq
  · have hset : {k : K | (s.get hash k).isSome = true}
        = ↑((s.entries.map (fun m => m.key)).toFinset) := by
      ext k
      simp only [Set.mem_setOf_eq, List.coe_toFinset]
      exact store_get_isSome_iff hash s hinv k
    rw [hset, Set.ncard_coe_Finset,
      List.toFinset_card_of_nodup (store_keys_nodup hash s hinv), List.length_map]
    exact store_entries_length hash s hinv

theorem C8_size_counts_keys_witness :
    ShardedHashMap.Reachable (fun n : Nat => n) demoStore ∧
    (demoStore.size = (demoStore.shards_.map HashTable.size).sum ∧
     (∀ t ∈ demoStore.shards_, t.size = (t.buckets_.map List.length).sum) ∧
     Set.ncard {k : Nat | (demoStore.get (fun n => n) k).isSome = true} = demoStore.size) :=
  ⟨ShardedHashMap.Reachable.put _ _ _ (ShardedHashMap.Reachable.init 16 (by decide)),
   C8_size_counts_keys _ demoStore
    (ShardedHashMap.Reachable.put _ _ _ (ShardedHashMap.Reachable.init 16 (by decide)))⟩

/-- C9: on the epoll reactor the four requests do not get the four replies.
`add_writer` adds the descriptor to the epoll instance a second time, which
fails, so the descriptor is never watched for `EPOLLOUT`: the task suspended in
the write of a reply is resumed only by the next arrival of input.  After the
first request of any session nothing is written.  In the session `SET foo bar`,
`GET foo`, `DEL foo`, `GET foo` on an empty store, `STORED` is written when the
second request arrives, the second and third requests are read as one request
`GET` with the key `foo`, line feed, `DEL foo`, answered `NOT_FOUND`, and after
the fourth request the replies written are `STORED` and `NOT_FOUND`, the key
`foo` is still stored and the fourth request is unread. -/
theorem C9_replies_withheld (hash : List Byte → Nat) (fd : Int) (h : Nat) :
    (∀ (store : Store) (sends : List (List Byte)),
      Connection.writable hash (Connection.session hash store fd (h + 1) sends) fd
        = Connection.session hash store fd (h + 1) sends) ∧
    (∀ (store : Store) (b : Byte) (data : List Byte),
      (epoll_ctl_add (Connection.start store fd (h + 1)).reactor.interest fd
          (EPOLLOUT ||| EPOLLET)).1 = false ∧
      (Connection.session hash store fd (h + 1) [b :: data]).written = [] ∧
      (Connection.session hash store fd (h + 1) [b :: data]).task
        = ConnState.awaitWrite
            (handleRequest hash store ((b :: data).take BUFFER_SIZE)).2 ∧
      (Connection.session hash store fd (h + 1) [b :: data]).reactor.interest fd
        = some (EPOLLIN ||| EPOLLET)) ∧
    (Connection.session hash emptyStore fd (h + 1)
        [bytes "SET foo bar\n", bytes "GET foo\n"]).written = [bytes "STORED\n"] ∧
    (Connection.session hash emptyStore fd (h + 1)
        [bytes "SET foo bar\n", bytes "GET foo\n", bytes "DEL foo\n"]).task
      = ConnState.awaitWrite (bytes "NOT_FOUND\n") ∧
    (Connection.session hash emptyStore fd (h + 1)
        [bytes "SET foo bar\n", bytes "GET foo\n", bytes "DEL foo\n", bytes "GET foo\n"]).written
      = [bytes "STORED\n", bytes "NOT_FOUND\n"] ∧
    (Connection.session hash emptyStore fd (h + 1)
        [bytes "SET foo bar\n", bytes "GET foo\n", bytes "DEL foo\n", bytes "GET foo\n"]).task
      = ConnState.awaitRead ∧
    (Connection.session hash emptyStore fd (h + 1)
        [bytes "SET foo bar\n", bytes "GET foo\n", bytes "DEL foo\n", bytes "GET foo\n"]).pending
      = bytes "GET foo\n" ∧
    (Connection.session hash emptyStore fd (h + 1)
        [bytes "SET foo bar\n", bytes "GET foo\n", bytes "DEL foo\n",
          bytes "GET foo\n"]).store.get hash (bytes "foo")
      = some (bytes "bar") := by
  have hinv : StoreInv hash (emptyStore : Store) := storeInv_new hash _ (by decide)
  refine ⟨fun store sends => writable_session hash store fd (h + 1) sends, ?_, ?_⟩
  · intro store b data
    obtain ⟨s1, s2, s3, s4, s5, s6⟩ := start_fields store fd (h + 1)
    obtain ⟨r1, _, _, r4, r5, _⟩ := receive_awaitRead hash (Connection.start store fd (h + 1))
      fd h EPOLLIN (b :: data) s1 s5 s6 (by rw [s3]; simp)
    rw [s3, s2] at r1
    rw [s4] at r4
    refine ⟨by simp only [epoll_ctl_add, s5], ?_, ?_, ?_⟩
    · simpa only [Connection.session, List.foldl_cons, List.foldl_nil] using r4
    · simpa only [Connection.session, List.foldl_cons, List.foldl_nil] using r1
    · simpa only [Connection.session, List.foldl_cons, List.foldl_nil] using r5
  · obtain ⟨s1, s2, s3, s4, s5, s6⟩ := start_fields emptyStore fd (h + 1)
    -- the first request arrives
    obtain ⟨a1, a2, a3, a4, a5, a6⟩ := receive_awaitRead hash
      (Connection.start emptyStore fd (h + 1)) fd h EPOLLIN (bytes "SET foo bar\n") s1 s5 s6
      (by rw [s3]; decide)
    have e1 : handleRequest hash emptyStore
        (List.take BUFFER_SIZE ([] ++ bytes "SET foo bar\n"))
        = (emptyStore.put hash (bytes "foo") (bytes "bar"), bytes "STORED\n") := by
      have : List.take BUFFER_SIZE ([] ++ bytes "SET foo bar\n")
          = setLine (bytes "foo") (bytes "bar") := by decide
      rw [this]
      exact handleRequest_set hash emptyStore _ _ (by decide) (by decide) (by decide)
        (by decide)
    rw [s3, s2, e1] at a1 a2
    rw [s3] at a3
    rw [s4] at a4
    have a3' : (Connection.receive hash (Connection.start emptyStore fd (h + 1)) fd
        (bytes "SET foo bar\n")).pending = [] := by
      rw [a3]
      decide
    -- the second request arrives
    obtain ⟨b1, b2, b3, b4, b5, b6⟩ := receive_awaitWrite hash _ fd h EPOLLOUT
      (bytes "GET foo\n") _ a1 a5 a6
    rw [a2] at b2
    rw [a3'] at b3
    rw [a4] at b4
    -- the third request arrives
    obtain ⟨c1, c2, c3, c4, c5, c6⟩ := receive_awaitRead hash _ fd h EPOLLIN
      (bytes "DEL foo\n") b1 b5 b6 (by rw [b3]; decide)
    have e3 : handleRequest hash (emptyStore.put hash (bytes "foo") (bytes "bar"))
        (List.take BUFFER_SIZE (([] ++ bytes "GET foo\n") ++ bytes "DEL foo\n"))
        = (emptyStore.put hash (bytes "foo") (bytes "bar"), bytes "NOT_FOUND\n") := by
      rw [handleRequest_get_of_trim hash _ _ (bytes "foo\nDEL foo") (by decide),
        store_get_put_other hash emptyStore hinv (bytes "foo") (bytes "foo\nDEL foo")
          (bytes "bar") (by decide),
        store_get_emptyStore]
    rw [b3, b2, e3] at c1 c2
    rw [b3] at c3
    rw [b4] at c4
    have c3' : (Connection.receive hash (Connection.receive hash (Connection.receive hash
        (Connection.start emptyStore fd (h + 1)) fd (bytes "SET foo bar\n")) fd
        (bytes "GET foo\n")) fd (bytes "DEL foo\n")).pending = [] := by
      rw [c3]
      decide
    -- the fourth request arrives
    obtain ⟨d1, d2, d3, d4, d5, d6⟩ := receive_awaitWrite hash _ fd h EPOLLOUT
      (bytes "GET foo\n") _ c1 c5 c6
    rw [c2] at d2
    rw [c3'] at d3
    rw [c4] at d4
    simp only [Connection.session, List.foldl_cons, List.foldl_nil]
    refine ⟨b4, c1, d4, d1, d3, ?_⟩
    rw [d2]
    exact store_get_put_self hash emptyStore hinv _ _

/-- C10: for every store state and every request that, after trailing CR/LF bytes
are trimmed, either begins with none of the exact prefixes `GET `, `SET `, `DEL `
or begins with `SET ` and has no space among the bytes after this four-byte
prefix, the reply is exactly `ERROR` followed by a line feed and the store is
unchanged. -/
theorem C10_error_reply (hash : List Byte → Nat) (store : Store) (buffer : List Byte)
    (h : (¬ bytes "GET " <+: trimLineEnd buffer ∧ ¬ bytes "SET " <+: trimLineEnd buffer ∧
            ¬ bytes "DEL " <+: trimLineEnd buffer) ∨
         (bytes "SET " <+: trimLineEnd buffer ∧ SP ∉ (trimLineEnd buffer).drop 4)) :
    handleRequest hash store buffer = (store, bytes "ERROR\n") := by
  rcases h with ⟨hg, hs, hd⟩ | ⟨hs, hsp⟩
  · rw [← startsWith_iff, Bool.not_eq_true] at hg hs hd
    simp [handleRequest, hg, hs, hd]
  · have hg : startsWith (trimLineEnd buffer) (bytes "GET ") = false := by
      obtain ⟨r, hr⟩ := hs
      rw [← hr, bytes_SET, bytes_GET]
      rfl
    have hf : findFrom SP 4 (trimLineEnd buffer) = none := by
      simp [findFrom, (findByte_eq_none_iff SP _).mpr hsp]
    rw [← startsWith_iff] at hs
    simp [handleRequest, hg, hs, hf]

theorem C10_error_reply_witness :
    ((¬ bytes "GET " <+: trimLineEnd (bytes "get foo\n") ∧
        ¬ bytes "SET " <+: trimLineEnd (bytes "get foo\n") ∧
        ¬ bytes "DEL " <+: trimLineEnd (bytes "get foo\n")) ∨
      (bytes "SET " <+: trimLineEnd (bytes "get foo\n") ∧
        SP ∉ (trimLineEnd (bytes "get foo\n")).drop 4)) ∧
    handleRequest lengthHash emptyStore (bytes "get foo\n")
      = (emptyStore, bytes "ERROR\n") :=
  ⟨Or.inl (by decide),
   C10_error_reply lengthHash emptyStore (bytes "get foo\n") (Or.inl (by decide))⟩

/-- C20, as amended: for every request obtained from a single read into the
4096-byte buffer, the parsed `SET` value is shorter than `MAX_VALUE_SIZE`, so the
value-size check never fires; on such requests that do not begin with `GET `
the reply is `ERROR_TOO_LARGE` followed by a line feed if and only if the
request is a well-formed `SET` whose key is longer than `MAX_KEY_SIZE` bytes. -/
theorem C20_too_large_iff (hash : List Byte → Nat) (store : Store) (buffer : List Byte)
    (hlen : buffer.length ≤ BUFFER_SIZE) :
    (∀ pos, findFrom SP 4 (trimLineEnd buffer) = some pos →
      ((trimLineEnd buffer).drop (pos + 1)).length < config.MAX_VALUE_SIZE) ∧
    (¬ bytes "GET " <+: trimLineEnd buffer →
      ((handleRequest hash store buffer).2 = bytes "ERROR_TOO_LARGE\n" ↔
        bytes "SET " <+: trimLineEnd buffer ∧
        ∃ pos, findFrom SP 4 (trimLineEnd buffer) = some pos ∧
          config.MAX_KEY_SIZE
            < (((trimLineEnd buffer).drop 4).take (pos - 4)).length)) := by
  have hB : BUFFER_SIZE = 4096 := rfl
  have hV : config.MAX_VALUE_SIZE = 10240 := rfl
  have hval : ∀ pos, ((trimLineEnd buffer).drop (pos + 1)).length < config.MAX_VALUE_SIZE := by
    intro pos
    have := trimLineEnd_length_le buffer
    rw [List.length_drop]
    omega
  refine ⟨fun pos _ => hval pos, ?_⟩
  intro hng
  rw [← startsWith_iff, Bool.not_eq_true] at hng
  rw [← startsWith_iff]
  unfold handleRequest
  simp only [hng, Bool.false_eq_true, if_false]
  by_cases hs : startsWith (trimLineEnd buffer) (bytes "SET ") = true
  · simp only [hs, if_true, true_and]
    cases hf : findFrom SP 4 (trimLineEnd buffer) with
    | none =>
      constructor
      · intro h
        exact absurd h reply_ne_TOO_LARGE.1
      · rintro ⟨p, hp, _⟩
        cases hp
    | some pos =>
      by_cases hk : config.MAX_KEY_SIZE
          < (((trimLineEnd buffer).drop 4).take (pos - 4)).length
      · simp only [hk, true_or, if_true]
        exact ⟨fun _ => ⟨pos, rfl, hk⟩, fun _ => trivial⟩
      · have hv := hval pos
        have hno : ¬ (config.MAX_KEY_SIZE
            < (((trimLineEnd buffer).drop 4).take (pos - 4)).length ∨
            config.MAX_VALUE_SIZE < ((trimLineEnd buffer).drop (pos + 1)).length) := by
          omega
        dsimp only
        rw [if_neg hno]
        constructor
        · intro h
          exact absurd h reply_ne_TOO_LARGE.2.1
        · rintro ⟨p, hp, hlt⟩
          cases hp
          exact absurd hlt hk
  · simp only [hs, Bool.false_eq_true, if_false, false_and, iff_false]
    by_cases hd : startsWith (trimLineEnd buffer) (bytes "DEL ") = true
    · simp only [hd, if_true]
      split
      · exact reply_ne_TOO_LARGE.2.2.1
      · exact reply_ne_TOO_LARGE.2.2.2
    · simp only [hd, Bool.false_eq_true, if_false]
      exact reply_ne_TOO_LARGE.1

theorem C20_too_large_iff_witness :
    (setLine (List.replicate 130 107) (bytes "some value")).length ≤ BUFFER_SIZE ∧
    findFrom SP 4 (trimLineEnd (setLine (List.replicate 130 107) (bytes "some value")))
      = some 134 ∧
    (handleRequest lengthHash emptyStore
      (setLine (List.replicate 130 107) (bytes "some value"))).2 = bytes "ERROR_TOO_LARGE\n" ∧
    ((∀ pos, findFrom SP 4
        (trimLineEnd (setLine (List.replicate 130 107) (bytes "some value"))) = some pos →
      ((trimLineEnd (setLine (List.replicate 130 107) (bytes "some value"))).drop
        (pos + 1)).length < config.MAX_VALUE_SIZE) ∧
    (¬ bytes "GET " <+: trimLineEnd (setLine (List.replicate 130 107) (bytes "some value")) →
      ((handleRequest lengthHash emptyStore
          (setLine (List.replicate 130 107) (bytes "some value"))).2
          = bytes "ERROR_TOO_LARGE\n" ↔
        bytes "SET " <+: trimLineEnd (setLine (List.replicate 130 107) (bytes "some value")) ∧
        ∃ pos, findFrom SP 4
            (trimLineEnd (setLine (List.replicate 130 107) (bytes "some value"))) = some pos ∧
          config.MAX_KEY_SIZE
            < (((trimLineEnd (setLine (List.replicate 130 107) (bytes "some value"))).drop
                4).take (pos - 4)).length))) :=
  ⟨by rw [setLine_length, List.length_replicate]; decide,
   by
    rw [trim_setLine _ _ (by decide), findFrom_set _ _ (not_mem_replicate _ _ _ (by decide)),
      List.length_replicate],
   by
    rw [handleRequest_set_of_trim lengthHash emptyStore _ (List.replicate 130 107)
      (bytes "some value") (trim_setLine _ _ (by decide))
      (not_mem_replicate _ _ _ (by decide)), if_pos]
    left
    rw [List.length_replicate]
    decide,
   C20_too_large_iff lengthHash emptyStore
    (setLine (List.replicate 130 107) (bytes "some value"))
    (by rw [setLine_length, List.length_replicate]; decide)⟩

/-- C20 as stated fails: after `SET k ERROR_TOO_LARGE` the request `GET k` is
answered with the stored value, which is the text `ERROR_TOO_LARGE`, although
the request is not a `SET`. -/
theorem C20_counterexample :
    ShardedHashMap.Reachable lengthHash
      (emptyStore.put lengthHash (bytes "k") (bytes "ERROR_TOO_LARGE")) ∧
    (bytes "GET k\n").length ≤ BUFFER_SIZE ∧
    (handleRequest lengthHash
        (emptyStore.put lengthHash (bytes "k") (bytes "ERROR_TOO_LARGE")) (bytes "GET k\n")).2
      = bytes "ERROR_TOO_LARGE\n" ∧
    ¬ bytes "SET " <+: trimLineEnd (bytes "GET k\n") := by
  have hreq : bytes "GET k\n" = getLine (bytes "k") := by decide
  have hget : (emptyStore.put lengthHash (bytes "k") (bytes "ERROR_TOO_LARGE")).get
      lengthHash (bytes "k") = some (bytes "ERROR_TOO_LARGE") :=
    store_get_put_self lengthHash emptyStore (storeInv_new lengthHash _ (by decide)) _ _
  refine ⟨ShardedHashMap.Reachable.put _ _ _ (ShardedHashMap.Reachable.init 16 (by decide)),
    by decide, ?_, by decide⟩
  rw [hreq, handleRequest_get lengthHash _ (bytes "k") (by decide), hget]
  decide

/-- C12: the loop that trims the request removes only the trailing CR and LF
bytes.  The received buffer `SET k a`, line feed, `b`, line feed is one request
after trimming, answered `STORED`, and the value stored under `k` is `a`, line
feed, `b`: a stored value holds a line feed, and `GET k` is answered with it. -/
theorem C12_line_feed_stored (hash : List Byte → Nat) :
    trimLineEnd (bytes "SET k a\nb\n") = bytes "SET k a\nb" ∧
    handleRequest hash emptyStore (bytes "SET k a\nb\n")
      = (emptyStore.put hash (bytes "k") (bytes "a\nb"), bytes "STORED\n") ∧
    (∃ n ∈ (handleRequest hash emptyStore (bytes "SET k a\nb\n")).1.entries,
      n.key = bytes "k" ∧ n.value = bytes "a\nb") ∧
    LF ∈ bytes "a\nb" ∧
    (handleRequest hash (handleRequest hash emptyStore (bytes "SET k a\nb\n")).1
      (bytes "GET k\n")).2 = bytes "a\nb\n" := by
  have hinv : StoreInv hash (emptyStore : Store) := storeInv_new hash _ (by decide)
  have htrim : trimLineEnd (bytes "SET k a\nb\n")
      = [83, 69, 84, 32] ++ (bytes "k" ++ SP :: bytes "a\nb") := by decide
  have hreq : handleRequest hash emptyStore (bytes "SET k a\nb\n")
      = (emptyStore.put hash (bytes "k") (bytes "a\nb"), bytes "STORED\n") := by
    rw [handleRequest_set_of_trim hash emptyStore _ (bytes "k") (bytes "a\nb") htrim
      (by decide), if_neg (by decide)]
  have hget : (emptyStore.put hash (bytes "k") (bytes "a\nb")).get hash (bytes "k")
      = some (bytes "a\nb") := store_get_put_self hash emptyStore hinv _ _
  refine ⟨by decide, hreq, ?_, by decide, ?_⟩
  · rw [hreq]
    exact (store_get_eq_some_iff hash _ (storeInv_put hash emptyStore hinv _ _)
      (bytes "k") (bytes "a\nb")).mp hget
  · have hline : bytes "GET k\n" = getLine (bytes "k") := by decide
    rw [hreq, hline, handleRequest_get hash _ (bytes "k") (by decide), hget]
    show bytes "a\nb" ++ bytes "\n" = bytes "a\nb\n"
    decide

/-- C13: a failed write of a reply does not close the connection: whatever count
the write returns, also a negative one, the task goes back to reading, while a
read that returns zero or a negative count does close it.  After a request and
a write that returned -1 the task awaits the next read. -/
theorem C13_write_result_ignored (hash : List Byte → Nat) (store : Store)
    (resp buffer : List Byte) (n : Int) (m : Nat) :
    connStep hash (ConnState.awaitWrite resp, store) (IOResult.write n)
      = (ConnState.awaitRead, store) ∧
    connStep hash (ConnState.awaitRead, store) (IOResult.read (-(m : Int)) buffer)
      = (ConnState.closed, store) ∧
    (connRun hash store [IOResult.read 6 (bytes "GET a\n"), IOResult.write (-1)]).1
      = ConnState.awaitRead := by
  refine ⟨rfl, ?_, ?_⟩
  · have h : (-(m : Int)) ≤ 0 := by omega
    simp only [connStep, h, if_true]
  · have h : ¬ ((6 : Int) ≤ 0) := by decide
    simp only [connRun, List.foldl_cons, List.foldl_nil, connStep, h, if_false]

/-- C14: handling a readiness event for `fd` leaves no registration for `fd` at
the time its continuation is resumed, and a second readiness event for `fd`
with no registration in between resumes nothing. -/
theorem C14_one_shot (handlers : Handlers) (fd : Int) :
    (EventLoop.handleEvent handlers fd).1 fd = none ∧
    (EventLoop.handleEvent (EventLoop.handleEvent handlers fd).1 fd).2 = none ∧
    (EventLoop.handleEvent (EventLoop.handleEvent handlers fd).1 fd).1
      = (EventLoop.handleEvent handlers fd).1 := by
  have h1 : (EventLoop.handleEvent handlers fd).1 fd = none := by
    unfold EventLoop.handleEvent
    cases h : handlers fd with
    | none => simpa using h
    | some handler => simp [EventLoop.eraseFd]
  refine ⟨h1, ?_, ?_⟩
  · rw [EventLoop.handleEvent, h1]
  · rw [EventLoop.handleEvent, h1]

/-- C15: in the epoll implementation `add_writer(fd, h2)` on a descriptor with a
pending readable registration for `h1` replaces that registration: afterwards
the entry of `fd` is `h2` with `EPOLLOUT`, and no entry holds the readable
registration of `h1` any more. -/
theorem C15_writer_replaces_reader (handlers : Handlers) (fd : Int) (h1 h2 : Nat) :
    EventLoop.add_reader handlers fd h1 true fd = some { handle := h1, events := EPOLLIN } ∧
    EventLoop.add_writer (EventLoop.add_reader handlers fd h1 true) fd h2 true fd
      = some { handle := h2, events := EPOLLOUT } ∧
    EventLoop.add_writer (EventLoop.add_reader handlers fd h1 true) fd h2 true fd
      ≠ some { handle := h1, events := EPOLLIN } ∧
    EventLoop.add_reader (EventLoop.add_writer handlers fd h1 true) fd h2 true fd
      = some { handle := h2, events := EPOLLIN } := by
  simp [EventLoop.add_reader, EventLoop.add_writer, EventLoop.assign, EPOLLIN, EPOLLOUT]

/-- C16: whatever the arguments, the server is constructed with port 5555; the
port computed from the first argument (or the default `SERVER_PORT`) is left in
the local variable `port`. -/
theorem C16_port_ignored (stoi : List Byte → Option Int) (argv : List (List Byte)) :
    (mainRun stoi argv).serverPort = 5555 ∧
    (∀ p : Int, 2 ≤ argv.length → stoi (argv.getD 1 []) = some p → 0 < p → p < 65536 →
      (mainRun stoi argv).port = p.toNat) ∧
    (argv.length < 2 → (mainRun stoi argv).port = config.SERVER_PORT) := by
  refine ⟨rfl, ?_, ?_⟩
  · intro p h2 hp h0 h1
    simp only [mainRun, h2, if_true, hp, h0, h1, and_self]
  · intro h
    have : ¬ 2 ≤ argv.length := by omega
    simp [mainRun, this]

/-- C17: for every reachable table state, every key `k` absent from it and every
`n >= 1`, `n` cycles `put(k, v); erase(k)` raise the number of growth blocks of
the table's pool by at most one in total: after every cycle the pool is the pool
after the first allocation with the allocated slot back at the head of the free
list, so each later `allocate` hands out that same slot again. -/
theorem C17_churn_bounded (hash : K → Nat) (t : HashTable K V)
    (h : HashTable.Reachable hash t) (k : K) (v : V) (hk : t.get hash k = none)
    (n : Nat) (hn : 1 ≤ n) :
    (t.churn hash k v n).nodePool_.allBlocks_ ≤ t.nodePool_.allBlocks_ + 1 ∧
    (t.churn hash k v n).nodePool_ = (t.churn hash k v 1).nodePool_ ∧
    (t.churn hash k v n).nodePool_.allocate.1 = t.nodePool_.allocate.1 := by
  have hinv := tableInv_of_reachable hash t h
  have h1 := (churn_spec hash t hinv k v hk n).2.2 hn
  have h2 := (churn_spec hash t hinv k v hk 1).2.2 (Nat.le_refl 1)
  refine ⟨?_, by rw [h1, h2], ?_⟩
  · rw [h1]
    exact allocate_allBlocks_le t.nodePool_
  · rw [h1]
    exact (allocate_of_free _ _ _ rfl).1

theorem C17_churn_bounded_witness :
    HashTable.Reachable (fun n : Nat => n) demoTable ∧
    demoTable.get (fun n => n) 3 = none ∧ 1 ≤ 5 ∧
    ((demoTable.churn (fun n => n) 3 30 5).nodePool_.allBlocks_
        ≤ demoTable.nodePool_.allBlocks_ + 1 ∧
     (demoTable.churn (fun n => n) 3 30 5).nodePool_
        = (demoTable.churn (fun n => n) 3 30 1).nodePool_ ∧
     (demoTable.churn (fun n => n) 3 30 5).nodePool_.allocate.1
        = demoTable.nodePool_.allocate.1) :=
  ⟨HashTable.Reachable.put _ _ _ (HashTable.Reachable.init 2), by decide, by decide,
   C17_churn_bounded _ demoTable (HashTable.Reachable.put _ _ _ (HashTable.Reachable.init 2))
    3 30 (by decide) 5 (by decide)⟩


/-- C18: `put` releases the lock before it calls `rehash()` and has no
single-flight check: on a table of capacity 4 holding three keys, two writers
whose locked parts both run before either resize both see the threshold crossed
and both resize, so the capacity becomes 16, where the same two calls one after
the other give 8. -/
theorem C18_double_resize :
    HashTable.Reachable (fun n : Nat => n) demoTable4 ∧
    demoTable4.capacity_ = 4 ∧ demoTable4.size = 3 ∧
    (HashTable.putLocked (fun n => n) demoTable4 3 30).2 = true ∧
    (HashTable.putLocked (fun n => n)
      (HashTable.putLocked (fun n => n) demoTable4 3 30).1 4 40).2 = true ∧
    (HashTable.twoWriters (fun n => n) demoTable4 3 30 4 40).capacity_ = 16 ∧
    ((demoTable4.put (fun n => n) 3 30).put (fun n => n) 4 40).capacity_ = 8 :=
  ⟨HashTable.Reachable.put _ _ _ (HashTable.Reachable.put _ _ _
      (HashTable.Reachable.put _ _ _ (HashTable.Reachable.init 4))),
   by decide, by decide, by decide, by decide, by decide, by decide⟩

/-- C19: in every reachable state of a store with 16 shards of default capacity
1024, every shard has a capacity `1024 * 2 ^ j`, every entry of shard `i` lies
in a bucket whose index is congruent to `i` modulo 16, and at most
`capacity / 16` buckets of the shard are non-empty. -/
theorem C19_bucket_residue (hash : K → Nat) (s : ShardedHashMap K V)
    (h : ShardedHashMap.Reachable hash s) (h16 : s.numShards_ = config.HASH_MAP_SHARDS)
    (i : Nat) (t : HashTable K V) (ht : s.shards_[i]? = some t) :
    (∃ j, t.capacity_ = 1024 * 2 ^ j) ∧
    (∀ b n, n ∈ t.buckets_.getD b [] → b % 16 = i) ∧
    (t.buckets_.filter (fun c => !c.isEmpty)).length ≤ t.capacity_ / 16 := by
  have hinv := storeInv_of_reachable hash s h
  obtain ⟨htinv, hshard⟩ := hinv.shard i t ht
  obtain ⟨j, hj⟩ := shard_capacity_of_reachable hash s h i t ht
  have hH : config.HASH_MAP_SHARDS = 16 := rfl
  have hcap : t.capacity_ = 16 * (64 * 2 ^ j) := by
    rw [hj]
    omega
  have hres : ∀ b n, n ∈ t.buckets_.getD b [] → b % 16 = i := by
    intro b n hn
    have h1 := htinv.home b n hn
    have h2 := hshard n ((mem_flatten_iff_getD _ _).mpr ⟨b, hn⟩)
    rw [h16, hH] at h2
    rw [← h1, hcap, Nat.mod_mul_right_mod]
    exact h2
  refine ⟨⟨j, hj⟩, hres, ?_⟩
  have hb : t.buckets_ = (List.range (16 * (64 * 2 ^ j))).map (fun b => t.buckets_.getD b []) := by
    have := map_getD_range t.buckets_
    rw [htinv.len, hcap] at this
    exact this.symm
  rw [hb, ← List.countP_eq_length_filter, List.countP_map, hcap,
    Nat.mul_div_cancel_left _ (by norm_num : 0 < 16)]
  apply countP_residue_le _ i
  intro b hp
  simp only [Function.comp, Bool.not_eq_true', List.isEmpty_eq_false] at hp
  obtain ⟨n, hn⟩ := List.exists_mem_of_ne_nil _ hp
  exact hres b n hn

theorem C19_bucket_residue_witness :
    ShardedHashMap.Reachable (fun n : Nat => n) demoStore ∧
    demoStore.numShards_ = config.HASH_MAP_SHARDS ∧
    demoStore.shards_[5]? = some (demoStore.shards_.getD 5 HashTable.new) ∧
    ((∃ j, (demoStore.shards_.getD 5 HashTable.new).capacity_ = 1024 * 2 ^ j) ∧
     (∀ b n, n ∈ (demoStore.shards_.getD 5 HashTable.new).buckets_.getD b [] → b % 16 = 5) ∧
     ((demoStore.shards_.getD 5 HashTable.new).buckets_.filter (fun c => !c.isEmpty)).length
        ≤ (demoStore.shards_.getD 5 HashTable.new).capacity_ / 16) :=
  ⟨ShardedHashMap.Reachable.put _ _ _ (ShardedHashMap.Reachable.init 16 (by decide)),
   by decide,
   getElem?_getD_of_lt _ _ _ (by
    rw [(storeInv_of_reachable (fun n : Nat => n) demoStore
      (ShardedHashMap.Reachable.put _ _ _ (ShardedHashMap.Reachable.init 16 (by decide)))).len]
    decide),
   C19_bucket_residue _ demoStore
    (ShardedHashMap.Reachable.put _ _ _ (ShardedHashMap.Reachable.init 16 (by decide)))
    (by decide) 5 _ (getElem?_getD_of_lt _ _ _ (by
      rw [(storeInv_of_reachable (fun n : Nat => n) demoStore
        (ShardedHashMap.Reachable.put _ _ _ (ShardedHashMap.Reachable.init 16 (by decide)))).len]
      decide))⟩

/-- C21: operations on one key do not disturb other keys.  For every reachable
store state, every reachable table state and all keys `k`, `k2` with `k2`
different from `k`, `get(k2)` returns the same result after `put(k, v)` and
after `erase(k)` as before, in the store and in the table; the keys may share a
bucket and the `put` may call `rehash()`. -/
theorem C21_other_keys (hash : K → Nat) (s : ShardedHashMap K V) (t : HashTable K V)
    (hs : ShardedHashMap.Reachable hash s) (ht : HashTable.Reachable hash t)
    (k k2 : K) (v : V) (hne : k2 ≠ k) :
    ((s.put hash k v).get hash k2 = s.get hash k2 ∧
      (s.erase hash k).2.get hash k2 = s.get hash k2) ∧
    ((t.put hash k v).get hash k2 = t.get hash k2 ∧
      (t.erase hash k).2.get hash k2 = t.get hash k2) :=
  ⟨⟨store_get_put_other hash s (storeInv_of_reachable hash s hs) k k2 v hne,
    store_get_erase_other hash s (storeInv_of_reachable hash s hs) k k2 hne⟩,
   ⟨get_put_other hash t (tableInv_of_reachable hash t ht) k k2 v hne,
    get_erase_other hash t (tableInv_of_reachable hash t ht) k k2 hne⟩⟩

theorem C21_other_keys_witness :
    ShardedHashMap.Reachable (fun n : Nat => n) demoStore ∧
    HashTable.Reachable (fun n : Nat => n) demoTable ∧ (1 : Nat) ≠ 3 ∧
    (((demoStore.put (fun n => n) 3 30).get (fun n => n) 1 = demoStore.get (fun n => n) 1 ∧
      (demoStore.erase (fun n => n) 3).2.get (fun n => n) 1 = demoStore.get (fun n => n) 1) ∧
     ((demoTable.put (fun n => n) 3 30).get (fun n => n) 1 = demoTable.get (fun n => n) 1 ∧
      (demoTable.erase (fun n => n) 3).2.get (fun n => n) 1 = demoTable.get (fun n => n) 1)) :=
  ⟨ShardedHashMap.Reachable.put _ _ _ (ShardedHashMap.Reachable.init 16 (by decide)),
   HashTable.Reachable.put _ _ _ (HashTable.Reachable.init 2), by decide,
   C21_other_keys _ demoStore demoTable
    (ShardedHashMap.Reachable.put _ _ _ (ShardedHashMap.Reachable.init 16 (by decide)))
    (HashTable.Reachable.put _ _ _ (HashTable.Reachable.init 2)) 3 1 30 (by decide)⟩

end Claims

end kv
